import Mathlib

/-!
Verification of the beast2blinder XML redaction tool (src/docs/beast2blinder.py).

The program is a batch text-redaction utility.  Per input file it performs two
regular-expression substitutions over the file text:

  1. re.subn with pattern (<sequence.*?value\s*?=\s*?")(.*?)(") and DOTALL,
     replacing each match by group1 + "-" + group3 (function seqRepl, lines 39-41
     and line 79);
  2. re.subn replacing every literal occurrence of <data by the template string
     "<!-- " + message + " -->\n\t<data" (line 80).

We embed the text as List Char.  The lazy (non-greedy) quantifiers of pattern 1
make the match at a given start position deterministic, so the whole
substitution is a deterministic left-to-right scan, implemented directly:
  - matchVW    : the subpattern  value \s*? = \s*? "  at the head of the text
    (the lazy \s*? before a required non-space character matches exactly the
    maximal whitespace run, so greedy whitespace skipping is equivalent);
  - findVW     : the backtracking search performed by the lazy  .*?  between
    <sequence and the value attribute: the earliest position at which matchVW
    succeeds AND a closing quote still exists afterwards (the engine expands
    .*? one character at a time, retrying the pattern tail at each position);
  - splitQuote : the lazy (.*?)(") group: split at the first double quote;
  - matchSeqAt : the whole pattern anchored at the head of the text;
  - subnSeq    : re.subn semantics: scan left to right, replace each leftmost
    non-overlapping match, resume after the match end.

The filesystem behaviour of the script (lines 46-93) is embedded further below
as a record of files and directories with the operations the script uses.
-/

/-- Python \s character class on the characters that occur here. -/
def isSpaceChar (c : Char) : Bool :=
  c = ' ' || c = '\t' || c = '\n' || c = '\r' || c = '\x0b' || c = '\x0c'

/-- The literal <sequence that opens pattern 1. -/
def seqLit : List Char := "<sequence".toList

/-- The literal value that starts the value attribute subpattern. -/
def valueLit : List Char := "value".toList

/-- The literal <data of pattern 2. -/
def dataLit : List Char := "<data".toList

/-- Whether needle occurs as a contiguous substring of the text. -/
def containsSub (needle : List Char) : List Char → Bool
  | [] => needle.isEmpty
  | c :: cs => needle.isPrefixOf (c :: cs) || containsSub needle cs

/-- Match  value \s*? = \s*? "  at the head of s.  Because the characters
required after each lazy \s*? (namely = and the double quote) are not
whitespace, the lazy whitespace runs coincide with the maximal ones, so
takeWhile and dropWhile implement the lazy semantics faithfully.
Returns (consumed, rest). -/
def matchVW (s : List Char) : Option (List Char × List Char) :=
  if valueLit.isPrefixOf s then
    match (s.drop 5).dropWhile isSpaceChar with
    | [] => none
    | e :: s3 =>
      if e = '=' then
        match s3.dropWhile isSpaceChar with
        | [] => none
        | q :: s5 =>
          if q = '"' then
            some (valueLit ++ ((s.drop 5).takeWhile isSpaceChar ++
                  '=' :: (s3.takeWhile isSpaceChar ++ ['"'])), s5)
          else none
      else none
  else none

/-- Split at the first double quote: s = fst ++ quote :: snd, no quote in fst. -/
def splitQuote : List Char → Option (List Char × List Char)
  | [] => none
  | c :: cs =>
    if c = '"' then some ([], cs)
    else match splitQuote cs with
      | some (a, b) => some (c :: a, b)
      | none => none

/-- The search performed by the lazy  .*?  of pattern 1: the earliest position
at which matchVW succeeds and the remainder still holds a closing quote
(otherwise the engine backtracks and expands .*? further).
Returns (skipped, consumed, rest). -/
def findVW : List Char → Option (List Char × List Char × List Char)
  | [] => none
  | c :: cs =>
    match matchVW (c :: cs) with
    | some (vw, rest) =>
      if rest.contains '"' then some ([], vw, rest)
      else
        match findVW cs with
        | some (sk, vw', r') => some (c :: sk, vw', r')
        | none => none
    | none =>
      match findVW cs with
      | some (sk, vw', r') => some (c :: sk, vw', r')
      | none => none

/-- Pattern 1 anchored at the head of s.  On success returns
(group1, group2, rest after the match); group3 is always the closing quote,
and s = group1 ++ group2 ++ quote :: rest. -/
def matchSeqAt (s : List Char) : Option (List Char × List Char × List Char) :=
  if seqLit.isPrefixOf s then
    match findVW (s.drop 9) with
    | some (mid, vw, rest) =>
      match splitQuote rest with
      | some (content, post) => some (seqLit ++ (mid ++ vw), content, post)
      | none => none
    | none => none
  else none

/-- Fuel-indexed left-to-right re.subn scan for pattern 1.  Each match is
replaced by group1 + "-" + group3 (the seqRepl function of the script) and the
scan resumes after the match.  The fuel (at least the text length) only makes
the recursion structural; subnSeqF_irrel shows the result is fuel-independent. -/
def subnSeqF : Nat → List Char → List Char × Nat
  | 0, s => (s, 0)
  | _ + 1, [] => ([], 0)
  | fuel + 1, c :: cs =>
    match matchSeqAt (c :: cs) with
    | some (p, _ct, rest) =>
      let r := subnSeqF fuel rest
      (p ++ '-' :: '"' :: r.1, r.2 + 1)
    | none =>
      let r := subnSeqF fuel cs
      (c :: r.1, r.2)

/-- Line 79: re.subn(r'(<sequence.*?value\s*?=\s*?")(.*?)(")', seqRepl, xml,
flags=re.DOTALL) — the rewritten text and the number of substitutions. -/
def subnSeq (s : List Char) : List Char × Nat := subnSeqF s.length s

/-- Fuel-indexed left-to-right re.subn scan for the literal pattern <data with
replacement text repl (which itself ends in <data, see line 80). -/
def subnDataF (repl : List Char) : Nat → List Char → List Char × Nat
  | 0, s => (s, 0)
  | _ + 1, [] => ([], 0)
  | fuel + 1, c :: cs =>
    if dataLit.isPrefixOf (c :: cs) then
      let r := subnDataF repl fuel (cs.drop 4)
      (repl ++ r.1, r.2 + 1)
    else
      let r := subnDataF repl fuel cs
      (c :: r.1, r.2)

/-- re.subn(r'<data', repl, text): rewritten text and substitution count. -/
def subnData (repl : List Char) (s : List Char) : List Char × Nat :=
  subnDataF repl s.length s

/-! ### Basic lemmas about prefixes and the quote splitter -/

theorem isPrefixOf_iff_take (l s : List Char) :
    l.isPrefixOf s = true ↔ s.take l.length = l := by
  induction l generalizing s with
  | nil => simp [List.isPrefixOf]
  | cons a l ih =>
    cases s with
    | nil => simp [List.isPrefixOf]
    | cons b s =>
      simp only [List.isPrefixOf, Bool.and_eq_true, beq_iff_eq, List.length_cons, List.take_succ_cons,
        List.cons.injEq, ih]
      exact ⟨fun ⟨h1, h2⟩ => ⟨h1.symm, h2⟩, fun ⟨h1, h2⟩ => ⟨h1.symm, h2⟩⟩

theorem isPrefixOf_append (l r : List Char) : l.isPrefixOf (l ++ r) = true := by
  rw [isPrefixOf_iff_take, List.take_left]

theorem isPrefixOf_decomp {l s : List Char} (h : l.isPrefixOf s = true) :
    ∃ t, s = l ++ t := by
  rw [isPrefixOf_iff_take] at h
  refine ⟨s.drop l.length, ?_⟩
  conv_lhs => rw [← List.take_append_drop l.length s]
  rw [h]

theorem isPrefixOf_length_le {l s : List Char} (h : l.isPrefixOf s = true) :
    l.length ≤ s.length := by
  obtain ⟨t, rfl⟩ := isPrefixOf_decomp h
  simp

theorem splitQuote_eq {s a b : List Char} (h : splitQuote s = some (a, b)) :
    s = a ++ '"' :: b ∧ '"' ∉ a := by
  induction s generalizing a b with
  | nil => simp [splitQuote] at h
  | cons c cs ih =>
    by_cases hc : c = '"'
    · subst hc
      simp [splitQuote] at h
      obtain ⟨rfl, rfl⟩ := h
      simp
    · simp only [splitQuote, if_neg hc] at h
      cases hsq : splitQuote cs with
      | none => rw [hsq] at h; exact absurd h (by simp)
      | some pr =>
        obtain ⟨a', b'⟩ := pr
        rw [hsq] at h
        simp only [Option.some.injEq, Prod.mk.injEq] at h
        obtain ⟨h1, rfl⟩ := h
        obtain ⟨hdec, hnot⟩ := ih hsq
        subst h1
        constructor
        · rw [hdec]; simp
        · intro hmem
          rcases List.mem_cons.mp hmem with h | h
          · exact hc h.symm
          · exact hnot h

theorem splitQuote_of_append {a : List Char} (b : List Char) (ha : '"' ∉ a) :
    splitQuote (a ++ '"' :: b) = some (a, b) := by
  induction a with
  | nil => simp [splitQuote]
  | cons c cs ih =>
    have hc : ¬ c = '"' := fun h => ha (by simp [h])
    have hcs : '"' ∉ cs := fun h => ha (by simp [h])
    show splitQuote (c :: (cs ++ '"' :: b)) = some (c :: cs, b)
    unfold splitQuote
    rw [if_neg hc, ih hcs]

/-! ### Structure of a successful matchVW -/

theorem matchVW_eq {s vw rest : List Char} (h : matchVW s = some (vw, rest)) :
    ∃ w1 w2, (∀ c ∈ w1, isSpaceChar c = true) ∧ (∀ c ∈ w2, isSpaceChar c = true) ∧
      vw = valueLit ++ (w1 ++ '=' :: (w2 ++ ['"'])) ∧ s = vw ++ rest := by
  unfold matchVW at h
  split at h
  case isFalse => exact absurd h (by simp)
  case isTrue hp =>
    split at h
    case h_1 => exact absurd h (by simp)
    case h_2 e s3 heq1 =>
      split at h
      case isFalse => exact absurd h (by simp)
      case isTrue he =>
        subst he
        split at h
        case h_1 => exact absurd h (by simp)
        case h_2 q s5 heq2 =>
          split at h
          case isFalse => exact absurd h (by simp)
          case isTrue hq =>
            subst hq
            simp only [Option.some.injEq, Prod.mk.injEq] at h
            obtain ⟨hvw, hrest⟩ := h
            refine ⟨(s.drop 5).takeWhile isSpaceChar, s3.takeWhile isSpaceChar,
              fun c hc => List.mem_takeWhile_imp hc, fun c hc => List.mem_takeWhile_imp hc,
              hvw.symm, ?_⟩
            obtain ⟨t, ht⟩ := isPrefixOf_decomp hp
            have hlen : valueLit.length = 5 := by decide
            have hdrop : s.drop 5 = t := by rw [ht, List.drop_left' hlen]
            have hs1 : s.drop 5 = (s.drop 5).takeWhile isSpaceChar ++ ('=' :: s3) := by
              conv_lhs => rw [← List.takeWhile_append_dropWhile (p := isSpaceChar) (l := s.drop 5)]
              rw [heq1]
            have hs3 : s3 = s3.takeWhile isSpaceChar ++ ('"' :: s5) := by
              conv_lhs => rw [← List.takeWhile_append_dropWhile (p := isSpaceChar) (l := s3)]
              rw [heq2]
            rw [ht, ← hdrop, hs1, ← hvw, ← hrest]
            conv_lhs => rw [hs3]
            simp

/-- The canonical success of matchVW: whitespace runs followed by = and the
opening quote. -/
theorem matchVW_canonical (w1 w2 T : List Char)
    (h1 : ∀ c ∈ w1, isSpaceChar c = true) (h2 : ∀ c ∈ w2, isSpaceChar c = true) :
    matchVW (valueLit ++ (w1 ++ '=' :: (w2 ++ '"' :: T))) =
      some (valueLit ++ (w1 ++ '=' :: (w2 ++ ['"'])), T) := by
  have hpre : valueLit.isPrefixOf (valueLit ++ (w1 ++ '=' :: (w2 ++ '"' :: T))) = true :=
    isPrefixOf_append _ _
  have hlen : valueLit.length = 5 := by decide
  have hdrop : (valueLit ++ (w1 ++ '=' :: (w2 ++ '"' :: T))).drop 5 =
      w1 ++ '=' :: (w2 ++ '"' :: T) := List.drop_left' hlen
  have heqq : ¬ isSpaceChar '=' = true := by decide
  have hqq : ¬ isSpaceChar '"' = true := by decide
  have hd1 : (w1 ++ '=' :: (w2 ++ '"' :: T)).dropWhile isSpaceChar =
      '=' :: (w2 ++ '"' :: T) := by
    rw [List.dropWhile_append_of_pos h1, List.dropWhile_cons_of_neg heqq]
  have ht1 : (w1 ++ '=' :: (w2 ++ '"' :: T)).takeWhile isSpaceChar = w1 := by
    rw [List.takeWhile_append_of_pos h1, List.takeWhile_cons_of_neg heqq, List.append_nil]
  have hd2 : (w2 ++ '"' :: T).dropWhile isSpaceChar = '"' :: T := by
    rw [List.dropWhile_append_of_pos h2, List.dropWhile_cons_of_neg hqq]
  have ht2 : (w2 ++ '"' :: T).takeWhile isSpaceChar = w2 := by
    rw [List.takeWhile_append_of_pos h2, List.takeWhile_cons_of_neg hqq, List.append_nil]
  unfold matchVW
  rw [if_pos hpre, hdrop, hd1, ht1]
  simp only [if_pos rfl]
  rw [hd2, ht2]
  simp

/-! ### Structure of a successful findVW -/

/-- A successful findVW decomposes the text, its consumed part is a matchVW
success whose remainder holds a closing quote, and at every earlier position
matchVW either fails or succeeds without a closing quote in its remainder
(which is exactly why the lazy .*? skipped that position). -/
theorem findVW_eq {s sk vw rest : List Char} (h : findVW s = some (sk, vw, rest)) :
    s = sk ++ (vw ++ rest) ∧ matchVW (vw ++ rest) = some (vw, rest) ∧
      rest.contains '"' = true ∧
      ∀ d₁ d₂, sk = d₁ ++ d₂ → d₂ ≠ [] →
        matchVW (d₂ ++ (vw ++ rest)) = none ∨
        ∃ w' r', matchVW (d₂ ++ (vw ++ rest)) = some (w', r') ∧ r'.contains '"' = false := by
  induction s generalizing sk vw rest with
  | nil => exact absurd h (by simp [findVW])
  | cons c cs ih =>
    unfold findVW at h
    cases hm : matchVW (c :: cs) with
    | some pr =>
      obtain ⟨vw₀, rest₀⟩ := pr
      rw [hm] at h
      try simp only [] at h
      by_cases hq : rest₀.contains '"' = true
      · rw [if_pos hq] at h
        simp only [Option.some.injEq, Prod.mk.injEq] at h
        obtain ⟨rfl, rfl, rfl⟩ := h
        obtain ⟨w1, w2, _, _, _, hdec⟩ := matchVW_eq hm
        refine ⟨by simpa using hdec, by rw [← hdec]; exact hm, hq, ?_⟩
        intro d₁ d₂ hd hne
        exact absurd (List.append_eq_nil.mp hd.symm).2 hne
      · rw [if_neg hq] at h
        cases hf : findVW cs with
        | none => rw [hf] at h; exact absurd h (by simp)
        | some tr =>
          obtain ⟨sk', vw', r'⟩ := tr
          rw [hf] at h
          simp only [Option.some.injEq, Prod.mk.injEq] at h
          obtain ⟨rfl, rfl, rfl⟩ := h
          obtain ⟨hdec, hmv, hqq, hmin⟩ := ih hf
          refine ⟨by rw [List.cons_append, ← hdec], hmv, hqq, ?_⟩
          intro d₁ d₂ hd hne
          cases d₁ with
          | nil =>
            simp only [List.nil_append] at hd
            subst hd
            right
            refine ⟨vw₀, rest₀, ?_, by simpa using hq⟩
            rw [List.cons_append, ← hdec, ← hm]
          | cons a d₁' =>
            simp only [List.cons_append, List.cons.injEq] at hd
            obtain ⟨rfl, hd'⟩ := hd
            exact hmin d₁' d₂ hd' hne
    | none =>
      rw [hm] at h
      try simp only [] at h
      cases hf : findVW cs with
      | none => rw [hf] at h; exact absurd h (by simp)
      | some tr =>
        obtain ⟨sk', vw', r'⟩ := tr
        rw [hf] at h
        simp only [Option.some.injEq, Prod.mk.injEq] at h
        obtain ⟨rfl, rfl, rfl⟩ := h
        obtain ⟨hdec, hmv, hqq, hmin⟩ := ih hf
        refine ⟨by rw [List.cons_append, ← hdec], hmv, hqq, ?_⟩
        intro d₁ d₂ hd hne
        cases d₁ with
        | nil =>
          simp only [List.nil_append] at hd
          subst hd
          left
          rw [List.cons_append, ← hdec, ← hm]
        | cons a d₁' =>
          simp only [List.cons_append, List.cons.injEq] at hd
          obtain ⟨rfl, hd'⟩ := hd
          exact hmin d₁' d₂ hd' hne

/-- findVW scans past a region where matchVW fails at every position. -/
theorem findVW_append {a X : List Char}
    (ha : ∀ d₁ d₂, a = d₁ ++ d₂ → d₂ ≠ [] → matchVW (d₂ ++ X) = none) :
    findVW (a ++ X) =
      match findVW X with
      | some (sk, vw, r) => some (a ++ sk, vw, r)
      | none => none := by
  induction a with
  | nil =>
    simp only [List.nil_append]
    cases findVW X with
    | none => rfl
    | some tr => obtain ⟨sk, vw, r⟩ := tr; rfl
  | cons c a' ih =>
    have hc : matchVW (c :: (a' ++ X)) = none := ha [] (c :: a') rfl (by simp)
    have ih' := ih (fun d₁ d₂ hd hne => ha (c :: d₁) d₂ (by rw [hd, List.cons_append]) hne)
    rw [List.cons_append]
    conv_lhs => unfold findVW
    rw [hc]
    try simp only []
    rw [ih']
    cases findVW X with
    | none => rfl
    | some tr => obtain ⟨sk, vw, r⟩ := tr; rfl

/-- findVW at a position where matchVW succeeds with a quote in the remainder. -/
theorem findVW_here {s vw rest : List Char} (hm : matchVW s = some (vw, rest))
    (hq : rest.contains '"' = true) : findVW s = some ([], vw, rest) := by
  cases s with
  | nil => exact absurd hm (by simp [matchVW, valueLit, List.isPrefixOf])
  | cons c cs =>
    conv_lhs => unfold findVW
    rw [hm]
    try simp only []
    rw [if_pos hq]

/-! ### Structure of a successful matchSeqAt -/

theorem matchSeqAt_eq {s p ct rest : List Char} (h : matchSeqAt s = some (p, ct, rest)) :
    ∃ mid vw, p = seqLit ++ (mid ++ vw) ∧
      s = p ++ (ct ++ '"' :: rest) ∧ '"' ∉ ct ∧
      s.drop 9 = mid ++ (vw ++ (ct ++ '"' :: rest)) ∧
      findVW (s.drop 9) = some (mid, vw, ct ++ '"' :: rest) := by
  unfold matchSeqAt at h
  split at h
  case isFalse => exact absurd h (by simp)
  case isTrue hp =>
    cases hf : findVW (s.drop 9) with
    | none => rw [hf] at h; exact absurd h (by simp)
    | some tr =>
      obtain ⟨mid, vw, rest₀⟩ := tr
      rw [hf] at h
      try simp only [] at h
      cases hsq : splitQuote rest₀ with
      | none => rw [hsq] at h; exact absurd h (by simp)
      | some pr =>
        obtain ⟨content, post⟩ := pr
        rw [hsq] at h
        simp only [Option.some.injEq, Prod.mk.injEq] at h
        obtain ⟨rfl, rfl, rfl⟩ := h
        obtain ⟨hq1, hq2⟩ := splitQuote_eq hsq
        obtain ⟨hdec, _hmv, _hqq, _hmin⟩ := findVW_eq hf
        obtain ⟨t, ht⟩ := isPrefixOf_decomp hp
        have hlen : seqLit.length = 9 := by decide
        have hdrop : s.drop 9 = t := by rw [ht, List.drop_left' hlen]
        subst hq1
        refine ⟨mid, vw, rfl, ?_, hq2, by rw [hdec], rfl⟩
        rw [ht, ← hdrop, hdec]
        simp

theorem matchSeqAt_none_not_pre {s : List Char} (h : seqLit.isPrefixOf s = false) :
    matchSeqAt s = none := by
  unfold matchSeqAt
  rw [h]
  simp

/-- The remainder after a match is shorter: the match consumes at least the
literal, the attribute and two quotes. -/
theorem matchSeqAt_rest_lt {s p ct rest : List Char} (h : matchSeqAt s = some (p, ct, rest)) :
    rest.length + 10 ≤ s.length := by
  obtain ⟨mid, vw, hp, hs, _, _, hf⟩ := matchSeqAt_eq h
  obtain ⟨_, hmv, _, _⟩ := findVW_eq hf
  obtain ⟨w1, w2, _, _, hshape, _⟩ := matchVW_eq hmv
  have h1 := congrArg List.length hs
  have h2 := congrArg List.length hp
  have h3 := congrArg List.length hshape
  have h4 : seqLit.length = 9 := by decide
  have h5 : valueLit.length = 5 := by decide
  simp [h4] at h1 h2
  simp [h5] at h3
  omega

/-! ### Fuel irrelevance and unfolding equations for subnSeq -/

theorem subnSeqF_irrel : ∀ fuel fuel' s, s.length ≤ fuel → s.length ≤ fuel' →
    subnSeqF fuel s = subnSeqF fuel' s := by
  intro fuel
  induction fuel with
  | zero =>
    intro fuel' s hs _
    have : s = [] := List.eq_nil_of_length_eq_zero (Nat.le_zero.mp hs)
    subst this
    cases fuel' <;> rfl
  | succ fuel ih =>
    intro fuel' s hs hs'
    cases s with
    | nil => cases fuel' <;> rfl
    | cons c cs =>
      cases fuel' with
      | zero => exact absurd hs' (by simp)
      | succ fuel'' =>
        unfold subnSeqF
        cases hm : matchSeqAt (c :: cs) with
        | some tr =>
          obtain ⟨p, ct, rest⟩ := tr
          have hlt := matchSeqAt_rest_lt hm
          simp only [List.length_cons] at hs hs' hlt
          simp only []
          rw [ih fuel'' rest (by omega) (by omega)]
        | none =>
          simp only [List.length_cons] at hs hs'
          simp only []
          rw [ih fuel'' cs (by omega) (by omega)]

theorem subnSeq_nil : subnSeq [] = ([], 0) := rfl

theorem subnSeq_cons_some {c : Char} {cs p ct rest : List Char}
    (h : matchSeqAt (c :: cs) = some (p, ct, rest)) :
    subnSeq (c :: cs) = (p ++ '-' :: '"' :: (subnSeq rest).1, (subnSeq rest).2 + 1) := by
  have hlt := matchSeqAt_rest_lt h
  simp only [List.length_cons] at hlt
  unfold subnSeq
  conv_lhs => rw [List.length_cons]
  conv_lhs => unfold subnSeqF
  rw [h]
  try simp only []
  rw [subnSeqF_irrel cs.length rest.length rest (by omega) (le_refl _)]

theorem subnSeq_cons_none {c : Char} {cs : List Char} (h : matchSeqAt (c :: cs) = none) :
    subnSeq (c :: cs) = (c :: (subnSeq cs).1, (subnSeq cs).2) := by
  unfold subnSeq
  conv_lhs => rw [List.length_cons]
  conv_lhs => unfold subnSeqF
  rw [h]
  try simp only []

/-! ### Fuel irrelevance and unfolding equations for subnData -/

theorem subnDataF_irrel (repl : List Char) : ∀ fuel fuel' s, s.length ≤ fuel →
    s.length ≤ fuel' → subnDataF repl fuel s = subnDataF repl fuel' s := by
  intro fuel
  induction fuel with
  | zero =>
    intro fuel' s hs _
    have : s = [] := List.eq_nil_of_length_eq_zero (Nat.le_zero.mp hs)
    subst this
    cases fuel' <;> rfl
  | succ fuel ih =>
    intro fuel' s hs hs'
    cases s with
    | nil => cases fuel' <;> rfl
    | cons c cs =>
      cases fuel' with
      | zero => exact absurd hs' (by simp)
      | succ fuel'' =>
        unfold subnDataF
        simp only [List.length_cons] at hs hs'
        by_cases hd : dataLit.isPrefixOf (c :: cs) = true
        · simp only [if_pos hd]
          rw [ih fuel'' (cs.drop 4) (by simp; omega) (by simp; omega)]
        · simp only [if_neg hd]
          rw [ih fuel'' cs (by omega) (by omega)]

theorem subnData_nil (repl : List Char) : subnData repl [] = ([], 0) := rfl

theorem subnData_cons_pos (repl : List Char) {c : Char} {cs : List Char}
    (h : dataLit.isPrefixOf (c :: cs) = true) :
    subnData repl (c :: cs) =
      (repl ++ (subnData repl (cs.drop 4)).1, (subnData repl (cs.drop 4)).2 + 1) := by
  unfold subnData
  conv_lhs => rw [List.length_cons]
  conv_lhs => unfold subnDataF
  rw [if_pos h]
  try simp only []
  rw [subnDataF_irrel repl cs.length (cs.drop 4).length (cs.drop 4) (by simp) (le_refl _)]

theorem subnData_cons_neg (repl : List Char) {c : Char} {cs : List Char}
    (h : ¬ dataLit.isPrefixOf (c :: cs) = true) :
    subnData repl (c :: cs) = (c :: (subnData repl cs).1, (subnData repl cs).2) := by
  unfold subnData
  conv_lhs => rw [List.length_cons]
  conv_lhs => unfold subnDataF
  rw [if_neg h]
  try simp only []

/-! ### Occurrence-freeness: no match can start inside a clean gap -/

theorem containsSub_of_pre {n t : List Char} (h : n.isPrefixOf t = true) :
    containsSub n t = true := by
  cases t with
  | nil =>
    have hlen : n.length ≤ 0 := by simpa using isPrefixOf_length_le h
    have hn : n = [] := List.eq_nil_of_length_eq_zero (Nat.le_zero.mp hlen)
    subst hn
    rfl
  | cons c cs => simp [containsSub, h]

theorem containsSub_append_right {n g₂ : List Char} (g₁ : List Char)
    (h : containsSub n g₂ = true) : containsSub n (g₁ ++ g₂) = true := by
  induction g₁ with
  | nil => simpa
  | cons c g' ih => simp [containsSub, ih]

/-- If n does not occur in g, n has no nontrivial border, and X is empty or
starts with n itself, then n is not a prefix at any position strictly inside
g ++ X before the end of g. -/
theorem not_pre_inner {n g : List Char} {X : List Char}
    (hb : ∀ k, k < n.length → 0 < k → n.drop k ≠ n.take (n.length - k))
    (hocc : containsSub n g = false)
    (hX : X = [] ∨ ∃ Y, X = n ++ Y) :
    ∀ g₁ g₂, g = g₁ ++ g₂ → g₂ ≠ [] → n.isPrefixOf (g₂ ++ X) = false := by
  intro g₁ g₂ hg hne
  by_contra hcon
  have hpre : n.isPrefixOf (g₂ ++ X) = true := by
    cases hval : n.isPrefixOf (g₂ ++ X) with
    | true => rfl
    | false => exact absurd hval hcon
  by_cases hlen : n.length ≤ g₂.length
  · -- the occurrence would lie inside g
    have htake : (g₂ ++ X).take n.length = g₂.take n.length ++ X.take (n.length - g₂.length) := by
      rw [List.take_append_eq_append_take]
    rw [Nat.sub_eq_zero_of_le hlen] at htake
    simp only [List.take_zero, List.append_nil] at htake
    have hpre₂ : n.isPrefixOf g₂ = true := by
      rw [isPrefixOf_iff_take] at hpre ⊢
      rw [htake] at hpre
      exact hpre
    have : containsSub n g = true := by
      rw [hg]
      exact containsSub_append_right g₁ (containsSub_of_pre hpre₂)
    rw [hocc] at this
    exact absurd this (by simp)
  · push_neg at hlen
    rcases hX with rfl | ⟨Y, rfl⟩
    · have := isPrefixOf_length_le hpre
      simp at this
      omega
    · -- a straddling occurrence forces a border of n
      set k := g₂.length with hk
      have hkpos : 0 < k := by
        cases g₂ with
        | nil => exact absurd rfl hne
        | cons a b => simp [hk]
      have htake : n = g₂ ++ n.take (n.length - k) := by
        rw [isPrefixOf_iff_take] at hpre
        rw [List.take_append_eq_append_take, ← hk, List.take_of_length_le (le_of_lt hlen),
          List.take_append_eq_append_take] at hpre
        have hz : n.length - k - n.length = 0 := by omega
        rw [hz] at hpre
        simp only [List.take_zero, List.append_nil] at hpre
        exact hpre.symm
      have hdropped : n.drop k = n.take (n.length - k) := by
        conv_lhs => rw [htake]
        rw [List.drop_left' hk.symm]
      exact hb k hlen hkpos hdropped

theorem contains_iff_mem (l : List Char) (c : Char) : l.contains c = true ↔ c ∈ l := by
  rw [List.contains_iff_exists_mem_beq]
  constructor
  · rintro ⟨a, ha, hbeq⟩
    rw [beq_iff_eq] at hbeq
    rwa [hbeq]
  · intro h
    exact ⟨c, h, by simp⟩

theorem matchVW_none_of_not_pre {s : List Char} (h : valueLit.isPrefixOf s = false) :
    matchVW s = none := by
  unfold matchVW
  rw [h]
  simp

/-! ### Scanning across a gap with no match start -/

theorem matchSeqAt_nil : matchSeqAt [] = none := by
  have : seqLit.isPrefixOf ([] : List Char) = false := by decide
  exact matchSeqAt_none_not_pre this

theorem subnSeq_match {s p ct rest : List Char} (h : matchSeqAt s = some (p, ct, rest)) :
    subnSeq s = (p ++ '-' :: '"' :: (subnSeq rest).1, (subnSeq rest).2 + 1) := by
  cases s with
  | nil => rw [matchSeqAt_nil] at h; exact absurd h (by simp)
  | cons c cs => exact subnSeq_cons_some h

theorem subnSeq_append_gap {g X : List Char}
    (h : ∀ g₁ g₂, g = g₁ ++ g₂ → g₂ ≠ [] → matchSeqAt (g₂ ++ X) = none) :
    subnSeq (g ++ X) = (g ++ (subnSeq X).1, (subnSeq X).2) := by
  induction g with
  | nil => simp
  | cons c g' ih =>
    have h0 : matchSeqAt (c :: (g' ++ X)) = none := h [] (c :: g') rfl (by simp)
    rw [List.cons_append, subnSeq_cons_none h0,
      ih (fun g₁ g₂ hg hne => h (c :: g₁) g₂ (by rw [hg, List.cons_append]) hne)]
    simp

theorem subnData_append_gap {repl g X : List Char}
    (h : ∀ g₁ g₂, g = g₁ ++ g₂ → g₂ ≠ [] → dataLit.isPrefixOf (g₂ ++ X) = false) :
    subnData repl (g ++ X) = (g ++ (subnData repl X).1, (subnData repl X).2) := by
  induction g with
  | nil => simp
  | cons c g' ih =>
    have h0 : dataLit.isPrefixOf (c :: (g' ++ X)) = false := h [] (c :: g') rfl (by simp)
    rw [List.cons_append, subnData_cons_neg repl (by simp [h0]),
      ih (fun g₁ g₂ hg hne => h (c :: g₁) g₂ (by rw [hg, List.cons_append]) hne)]
    simp

/-! ### A well-formed sequence element and its match -/

/-- A well-formed <sequence ... value="..."> element, split into its parts:
<sequence, the attribute text before the value attribute, value, optional
whitespace, =, optional whitespace, the opening quote, the content, the
closing quote. -/
structure SeqElem where
  attrs : List Char
  ws1 : List Char
  ws2 : List Char
  content : List Char

/-- The text of a well-formed element. -/
def elemText (e : SeqElem) : List Char :=
  seqLit ++ (e.attrs ++ (valueLit ++ (e.ws1 ++ '=' :: (e.ws2 ++ '"' :: (e.content ++ ['"'])))))

/-- Well-formedness side conditions: the attribute text before value holds no
value token (otherwise the non-greedy match locks onto the earlier token), the
whitespace runs are whitespace, and the quoted content holds no unescaped
double quote (the condition stated by the spec). -/
def wfSeqElem (e : SeqElem) : Prop :=
  containsSub valueLit e.attrs = false ∧ (∀ c ∈ e.ws1, isSpaceChar c = true) ∧
    (∀ c ∈ e.ws2, isSpaceChar c = true) ∧ '"' ∉ e.content

/-- The element with its value content collapsed to the placeholder. -/
def redactElem (e : SeqElem) : SeqElem :=
  { e with content := ['-'] }

theorem matchSeqAt_elem (e : SeqElem) (hwf : wfSeqElem e) (REST : List Char) :
    matchSeqAt (elemText e ++ REST) =
      some (seqLit ++ (e.attrs ++ (valueLit ++ (e.ws1 ++ '=' :: (e.ws2 ++ ['"'])))),
        e.content, REST) := by
  obtain ⟨hocc, hws1, hws2, hq⟩ := hwf
  have hX : elemText e ++ REST =
      seqLit ++ (e.attrs ++ (valueLit ++ (e.ws1 ++ '=' :: (e.ws2 ++ '"' ::
        (e.content ++ '"' :: REST))))) := by
    simp [elemText]
  have hlen : seqLit.length = 9 := by decide
  have hpre : seqLit.isPrefixOf (elemText e ++ REST) = true := by
    rw [hX]; exact isPrefixOf_append _ _
  have hdrop : (elemText e ++ REST).drop 9 =
      e.attrs ++ (valueLit ++ (e.ws1 ++ '=' :: (e.ws2 ++ '"' :: (e.content ++ '"' :: REST)))) := by
    rw [hX, List.drop_left' hlen]
  have hmv : matchVW (valueLit ++ (e.ws1 ++ '=' :: (e.ws2 ++ '"' :: (e.content ++ '"' :: REST)))) =
      some (valueLit ++ (e.ws1 ++ '=' :: (e.ws2 ++ ['"'])), e.content ++ '"' :: REST) :=
    matchVW_canonical _ _ _ hws1 hws2
  have hqin : (e.content ++ '"' :: REST).contains '"' = true := by
    rw [contains_iff_mem]; simp
  have hfX : findVW (valueLit ++ (e.ws1 ++ '=' :: (e.ws2 ++ '"' :: (e.content ++ '"' :: REST)))) =
      some ([], valueLit ++ (e.ws1 ++ '=' :: (e.ws2 ++ ['"'])), e.content ++ '"' :: REST) :=
    findVW_here hmv hqin
  have hborder : ∀ k, k < valueLit.length → 0 < k →
      valueLit.drop k ≠ valueLit.take (valueLit.length - k) := by decide
  have hfail : ∀ g₁ g₂, e.attrs = g₁ ++ g₂ → g₂ ≠ [] →
      matchVW (g₂ ++ (valueLit ++ (e.ws1 ++ '=' :: (e.ws2 ++ '"' ::
        (e.content ++ '"' :: REST))))) = none := by
    intro g₁ g₂ hg hne
    exact matchVW_none_of_not_pre
      (not_pre_inner hborder hocc (Or.inr ⟨_, rfl⟩) g₁ g₂ hg hne)
  have hfind := findVW_append hfail
  rw [hfX] at hfind
  unfold matchSeqAt
  rw [if_pos hpre, hdrop, hfind]
  try simp only []
  rw [splitQuote_of_append REST hq]
  simp

/-! ### No match can start inside a clean gap -/

theorem gapSeq_no_match {g X : List Char} (hocc : containsSub seqLit g = false)
    (hX : X = [] ∨ ∃ Y, X = seqLit ++ Y) :
    ∀ g₁ g₂, g = g₁ ++ g₂ → g₂ ≠ [] → matchSeqAt (g₂ ++ X) = none := by
  intro g₁ g₂ hg hne
  have hb : ∀ k, k < seqLit.length → 0 < k →
      seqLit.drop k ≠ seqLit.take (seqLit.length - k) := by decide
  exact matchSeqAt_none_not_pre (not_pre_inner hb hocc hX g₁ g₂ hg hne)

theorem gapData_no_pre {g X : List Char} (hocc : containsSub dataLit g = false)
    (hX : X = [] ∨ ∃ Y, X = dataLit ++ Y) :
    ∀ g₁ g₂, g = g₁ ++ g₂ → g₂ ≠ [] → dataLit.isPrefixOf (g₂ ++ X) = false := by
  intro g₁ g₂ hg hne
  have hb : ∀ k, k < dataLit.length → 0 < k →
      dataLit.drop k ≠ dataLit.take (dataLit.length - k) := by decide
  exact not_pre_inner hb hocc hX g₁ g₂ hg hne

theorem subnSeq_no_occurrence {s : List Char} (h : containsSub seqLit s = false) :
    subnSeq s = (s, 0) := by
  have := subnSeq_append_gap (g := s) (X := []) (gapSeq_no_match h (Or.inl rfl))
  simpa [subnSeq_nil] using this

theorem subnData_no_occurrence (repl : List Char) {s : List Char}
    (h : containsSub dataLit s = false) : subnData repl s = (s, 0) := by
  have := @subnData_append_gap repl s [] (gapData_no_pre h (Or.inl rfl))
  simpa [subnData_nil] using this

/-! ### Zero substitutions leave the text unchanged -/

theorem subnSeq_count_zero {s : List Char} (h : (subnSeq s).2 = 0) : (subnSeq s).1 = s := by
  induction s with
  | nil => rfl
  | cons c cs ih =>
    cases hm : matchSeqAt (c :: cs) with
    | some tr =>
      obtain ⟨p, ct, rest⟩ := tr
      rw [subnSeq_cons_some hm] at h
      simp at h
    | none =>
      rw [subnSeq_cons_none hm] at h ⊢
      simp only [] at h ⊢
      rw [ih h]

theorem subnData_count_zero {repl s : List Char} (h : (subnData repl s).2 = 0) :
    (subnData repl s).1 = s := by
  induction s with
  | nil => rfl
  | cons c cs ih =>
    by_cases hm : dataLit.isPrefixOf (c :: cs) = true
    · rw [subnData_cons_pos repl hm] at h
      simp at h
    · rw [subnData_cons_neg repl hm] at h ⊢
      simp only [] at h ⊢
      rw [ih h]

/-! ### The full substitution over well-formed text -/

/-- The text assembled from a leading gap and a list of well-formed elements,
each followed by a gap. -/
def assembleSeq : List Char → List (SeqElem × List Char) → List Char
  | g0, [] => g0
  | g0, (e, g) :: rest => g0 ++ (elemText e ++ assembleSeq g rest)

theorem subnSeq_assemble : ∀ (items : List (SeqElem × List Char)) (g0 : List Char),
    containsSub seqLit g0 = false →
    (∀ p ∈ items, wfSeqElem p.1 ∧ containsSub seqLit p.2 = false) →
    subnSeq (assembleSeq g0 items) =
      (assembleSeq g0 (items.map (fun p => (redactElem p.1, p.2))), items.length) := by
  intro items
  induction items with
  | nil =>
    intro g0 hg0 _
    show subnSeq g0 = (g0, 0)
    exact subnSeq_no_occurrence hg0
  | cons pr rest ih =>
    obtain ⟨e, g⟩ := pr
    intro g0 hg0 hitems
    obtain ⟨hwf, hgap⟩ := hitems (e, g) (by simp)
    have hrest : ∀ q ∈ rest, wfSeqElem q.1 ∧ containsSub seqLit q.2 = false :=
      fun q hq => hitems q (by simp [hq])
    show subnSeq (g0 ++ (elemText e ++ assembleSeq g rest)) = _
    have hXform : ∃ Y, elemText e ++ assembleSeq g rest = seqLit ++ Y :=
      ⟨e.attrs ++ (valueLit ++ (e.ws1 ++ '=' :: (e.ws2 ++ '"' ::
        (e.content ++ '"' :: assembleSeq g rest)))), by simp [elemText]⟩
    rw [subnSeq_append_gap (gapSeq_no_match hg0 (Or.inr hXform))]
    rw [subnSeq_match (matchSeqAt_elem e hwf (assembleSeq g rest))]
    rw [ih g hgap hrest]
    show _ = (g0 ++ (elemText (redactElem e) ++
      assembleSeq g (rest.map (fun p => (redactElem p.1, p.2)))), rest.length + 1)
    simp [elemText, redactElem]

/-! ### The literal <data substitution over clean gaps -/

/-- The text assembled from gaps separated by occurrences of <data. -/
def assembleData : List Char → List (List Char) → List Char
  | g0, [] => g0
  | g0, g :: gs => g0 ++ (dataLit ++ assembleData g gs)

/-- The same text with the replacement comment text inserted before every
occurrence of <data. -/
def assembleDataIns (cmt : List Char) : List Char → List (List Char) → List Char
  | g0, [] => g0
  | g0, g :: gs => g0 ++ (cmt ++ (dataLit ++ assembleDataIns cmt g gs))

theorem subnData_at_lit (repl Y : List Char) :
    subnData repl (dataLit ++ Y) =
      (repl ++ (subnData repl Y).1, (subnData repl Y).2 + 1) := by
  have hform : dataLit ++ Y = '<' :: ('d' :: ('a' :: ('t' :: ('a' :: Y)))) := rfl
  have hpos : dataLit.isPrefixOf ('<' :: ('d' :: ('a' :: ('t' :: ('a' :: Y))))) = true := by
    rw [← hform]
    exact isPrefixOf_append _ _
  rw [hform, subnData_cons_pos repl hpos]
  have hdrop : ('d' :: ('a' :: ('t' :: ('a' :: Y)))).drop 4 = Y := rfl
  rw [hdrop]

theorem subnData_assemble (cmt : List Char) : ∀ (gs : List (List Char)) (g0 : List Char),
    containsSub dataLit g0 = false → (∀ g ∈ gs, containsSub dataLit g = false) →
    subnData (cmt ++ dataLit) (assembleData g0 gs) =
      (assembleDataIns cmt g0 gs, gs.length) := by
  intro gs
  induction gs with
  | nil =>
    intro g0 hg0 _
    exact subnData_no_occurrence _ hg0
  | cons g gs' ih =>
    intro g0 hg0 hgs
    have hg : containsSub dataLit g = false := hgs g (by simp)
    have hrest : ∀ q ∈ gs', containsSub dataLit q = false := fun q hq => hgs q (by simp [hq])
    show subnData (cmt ++ dataLit) (g0 ++ (dataLit ++ assembleData g gs')) = _
    rw [subnData_append_gap (gapData_no_pre hg0 (Or.inr ⟨_, rfl⟩))]
    rw [subnData_at_lit]
    rw [ih g hg hrest]
    show _ = (g0 ++ (cmt ++ (dataLit ++ assembleDataIns cmt g gs')), gs'.length + 1)
    simp

/-! ### Replacement template expansion (the second re.subn takes a string
replacement, so the message is spliced into a replacement template) -/

def isOctChar (c : Char) : Bool := '0' ≤ c && c ≤ '7'

def octVal (c : Char) : Nat := c.toNat - '0'.toNat

/-- Python re replacement-template processing (re parse_template semantics)
for a pattern with no capture groups: a backslash escape is interpreted;
a nonzero digit or a g after a backslash is a group reference, always invalid
here because the pattern <data has no groups; backslash zero starts an octal
escape of up to two further octal digits; a known ASCII-letter escape becomes
the control character; an unknown ASCII-letter escape is an error; any other
escaped character keeps both the backslash and the character. -/
def expandTemplateF : Nat → List Char → Except String (List Char)
  | 0, _ => Except.ok []
  | _ + 1, [] => Except.ok []
  | fuel + 1, c :: cs =>
    if c = '\\' then
      match cs with
      | [] => Except.error "bad escape (end of pattern)"
      | d :: ds =>
        if d = '\\' then (expandTemplateF fuel ds).map (fun r => '\\' :: r)
        else if d = '0' then
          match ds with
          | e1 :: e2 :: rest =>
            if isOctChar e1 && isOctChar e2 then
              (expandTemplateF fuel rest).map
                (fun r => Char.ofNat (octVal e1 * 8 + octVal e2) :: r)
            else if isOctChar e1 then
              (expandTemplateF fuel (e2 :: rest)).map (fun r => Char.ofNat (octVal e1) :: r)
            else (expandTemplateF fuel ds).map (fun r => '\x00' :: r)
          | [e1] =>
            if isOctChar e1 then Except.ok [Char.ofNat (octVal e1)]
            else (expandTemplateF fuel ds).map (fun r => '\x00' :: r)
          | [] => Except.ok ['\x00']
        else if d.isDigit then Except.error "invalid group reference"
        else if d = 'g' then Except.error "invalid group reference or missing angle bracket"
        else if d = 'a' then (expandTemplateF fuel ds).map (fun r => '\x07' :: r)
        else if d = 'b' then (expandTemplateF fuel ds).map (fun r => '\x08' :: r)
        else if d = 'f' then (expandTemplateF fuel ds).map (fun r => '\x0c' :: r)
        else if d = 'n' then (expandTemplateF fuel ds).map (fun r => '\n' :: r)
        else if d = 'r' then (expandTemplateF fuel ds).map (fun r => '\r' :: r)
        else if d = 't' then (expandTemplateF fuel ds).map (fun r => '\t' :: r)
        else if d = 'v' then (expandTemplateF fuel ds).map (fun r => '\x0b' :: r)
        else if d.isAlpha then Except.error "bad escape"
        else (expandTemplateF fuel ds).map (fun r => '\\' :: (d :: r))
    else (expandTemplateF fuel cs).map (fun r => c :: r)

/-- Python re replacement-template processing; see expandTemplateF for the
escape rules.  The fuel argument only makes the recursion structural. -/
def expandTemplate (l : List Char) : Except String (List Char) :=
  expandTemplateF l.length l

/-- Line 80's replacement string: "<!-- " + options.message + " -->\n\t<data". -/
def disclaimerTemplate (message : List Char) : List Char :=
  "<!-- ".toList ++ (message ++ " -->\n\t<data".toList)

/-- The second substitution of the script (line 80): expand the replacement
template and substitute it for every occurrence of <data. -/
def insert_disclaimer (message text : List Char) : Except String (List Char × Nat) :=
  match expandTemplate (disclaimerTemplate message) with
  | Except.error e => Except.error e
  | Except.ok repl => Except.ok (subnData repl text)

theorem expandTemplateF_no_backslash : ∀ (fuel : Nat) (l : List Char), l.length ≤ fuel →
    '\\' ∉ l → expandTemplateF fuel l = Except.ok l := by
  intro fuel
  induction fuel with
  | zero =>
    intro l hl _
    have : l = [] := List.eq_nil_of_length_eq_zero (Nat.le_zero.mp hl)
    subst this
    rfl
  | succ fuel ih =>
    intro l hl h
    cases l with
    | nil => rfl
    | cons c cs =>
      have hc : ¬ c = '\\' := fun hcc => h (by simp [hcc])
      have hcs : '\\' ∉ cs := fun hm => h (by simp [hm])
      simp only [List.length_cons] at hl
      unfold expandTemplateF
      rw [if_neg hc, ih cs (by omega) hcs]
      rfl

theorem expandTemplate_no_backslash {l : List Char} (h : '\\' ∉ l) :
    expandTemplate l = Except.ok l :=
  expandTemplateF_no_backslash l.length l (le_refl _) h

theorem insert_disclaimer_eq {message : List Char} (h : '\\' ∉ message) (text : List Char) :
    insert_disclaimer message text =
      Except.ok (subnData (disclaimerTemplate message) text) := by
  have hnb : '\\' ∉ disclaimerTemplate message := by
    intro hm
    unfold disclaimerTemplate at hm
    rcases List.mem_append.mp hm with h1 | h2
    · exact absurd h1 (by decide)
    · rcases List.mem_append.mp h2 with h3 | h4
      · exact h h3
      · exact absurd h4 (by decide)
  unfold insert_disclaimer
  rw [expandTemplate_no_backslash hnb]

/-! ### The decision of matchVW is fixed by the text up to a closing quote -/

theorem dropWhile_append_nil {p : Char → Bool} {u : List Char} (h : u.dropWhile p = [])
    (r : List Char) : (u ++ r).dropWhile p = r.dropWhile p := by
  induction u with
  | nil => rfl
  | cons c u' ih =>
    rw [List.dropWhile_cons] at h
    by_cases hp : p c = true
    · rw [if_pos hp] at h
      rw [List.cons_append, List.dropWhile_cons_of_pos hp]
      exact ih h
    · rw [if_neg hp] at h
      exact absurd h (by simp)

theorem dropWhile_append_cons {p : Char → Bool} {u : List Char} {e : Char} {d : List Char}
    (h : u.dropWhile p = e :: d) (r : List Char) :
    (u ++ r).dropWhile p = e :: (d ++ r) := by
  induction u with
  | nil => exact absurd h (by simp)
  | cons c u' ih =>
    rw [List.dropWhile_cons] at h
    by_cases hp : p c = true
    · rw [if_pos hp] at h
      rw [List.cons_append, List.dropWhile_cons_of_pos hp]
      exact ih h
    · rw [if_neg hp] at h
      simp only [List.cons.injEq] at h
      obtain ⟨rfl, rfl⟩ := h
      rw [List.cons_append, List.dropWhile_cons_of_neg (by simp [hp])]

/-- matchVW reads value, whitespace, =, whitespace and a quote.  None of those
can step across a double quote except by succeeding on it, so on a text of the
form u ++ quote :: v the success or failure of matchVW does not depend on v. -/
theorem matchVW_quote_cases (u : List Char) :
    (∀ w, matchVW (u ++ '"' :: w) = none) ∨
    (∀ w, ∃ vw r, matchVW (u ++ '"' :: w) = some (vw, r)) := by
  have h5 : valueLit.length = 5 := by decide
  by_cases hu5 : 5 ≤ u.length
  · by_cases hpre : valueLit.isPrefixOf u = true
    · -- u = valueLit ++ u1: analyse the whitespace and = structure of u1
      obtain ⟨u1, rfl⟩ := isPrefixOf_decomp hpre
      have hq : ¬ isSpaceChar '"' = true := by decide
      have hshape : ∀ w : List Char, (valueLit ++ u1) ++ '"' :: w =
          valueLit ++ (u1 ++ '"' :: w) := by
        intro w
        simp
      cases hd1 : u1.dropWhile isSpaceChar with
      | nil =>
        -- only whitespace before the quote: the = is missing, always none
        left
        intro w
        rw [hshape w]
        unfold matchVW
        rw [if_pos (isPrefixOf_append _ _), List.drop_left' h5]
        rw [dropWhile_append_nil hd1, List.dropWhile_cons_of_neg hq]
        simp
      | cons e d2 =>
        by_cases he : e = '='
        · subst he
          cases hd2 : d2.dropWhile isSpaceChar with
          | nil =>
            -- = then whitespace then the quote: always a success
            right
            intro w
            rw [hshape w]
            unfold matchVW
            rw [if_pos (isPrefixOf_append _ _), List.drop_left' h5]
            rw [dropWhile_append_cons hd1]
            try simp only []
            simp only [reduceIte, if_true]
            rw [dropWhile_append_nil hd2, List.dropWhile_cons_of_neg hq]
            try simp only []
            simp only [reduceIte, if_true]
            exact ⟨_, _, rfl⟩
          | cons q d3 =>
            by_cases hqq : q = '"'
            · subst hqq
              -- = then junk ending in a quote inside u: always a success
              right
              intro w
              rw [hshape w]
              unfold matchVW
              rw [if_pos (isPrefixOf_append _ _), List.drop_left' h5]
              rw [dropWhile_append_cons hd1]
              try simp only []
              simp only [reduceIte, if_true]
              rw [dropWhile_append_cons hd2]
              try simp only []
              simp only [reduceIte, if_true]
              exact ⟨_, _, rfl⟩
            · -- = then a non-space, non-quote character: always none
              left
              intro w
              rw [hshape w]
              unfold matchVW
              rw [if_pos (isPrefixOf_append _ _), List.drop_left' h5]
              rw [dropWhile_append_cons hd1]
              try simp only []
              simp only [reduceIte, if_true]
              rw [dropWhile_append_cons hd2]
              try simp only []
              rw [if_neg hqq]
        · -- the first non-space character after value is not =: always none
          left
          intro w
          rw [hshape w]
          unfold matchVW
          rw [if_pos (isPrefixOf_append _ _), List.drop_left' h5]
          rw [dropWhile_append_cons hd1]
          try simp only []
          rw [if_neg he]
    · -- value is not a prefix of u, hence not of u ++ quote :: w either
      left
      intro w
      apply matchVW_none_of_not_pre
      cases hval : valueLit.isPrefixOf (u ++ '"' :: w) with
      | false => rfl
      | true =>
        exfalso
        apply hpre
        rw [isPrefixOf_iff_take] at hval ⊢
        rw [List.take_append_eq_append_take, Nat.sub_eq_zero_of_le (by omega)] at hval
        simpa using hval
  · -- u is too short: the prefix check reads the quote and fails
    left
    intro w
    apply matchVW_none_of_not_pre
    cases hval : valueLit.isPrefixOf (u ++ '"' :: w) with
    | false => rfl
    | true =>
      exfalso
      rw [isPrefixOf_iff_take] at hval
      obtain ⟨k, hk⟩ : ∃ k, valueLit.length - u.length = k + 1 :=
        ⟨4 - u.length, by simp [h5]; omega⟩
      have htk : (u ++ '"' :: w).take valueLit.length = u ++ '"' :: w.take k := by
        rw [List.take_append_eq_append_take, List.take_of_length_le (by omega), hk,
          List.take_succ_cons]
      rw [htk] at hval
      have hqin : '"' ∈ valueLit := by rw [← hval]; simp
      exact absurd hqin (by decide)

theorem matchVW_quote_transfer {u v : List Char} (v' : List Char)
    (h : matchVW (u ++ '"' :: v) = none) : matchVW (u ++ '"' :: v') = none := by
  rcases matchVW_quote_cases u with hall | hall
  · exact hall v'
  · obtain ⟨vw, r, hs⟩ := hall v
    rw [hs] at h
    exact absurd h (by simp)

/-! ### When the attribute search fails, no later match exists either -/

theorem drop_append_len : ∀ (u v : List Char) (n : Nat),
    (u ++ v).drop (u.length + n) = v.drop n := by
  intro u
  induction u with
  | nil => intro v n; simp
  | cons c u' ih =>
    intro v n
    rw [List.cons_append, List.length_cons,
      show u'.length + 1 + n = (u'.length + n) + 1 from by omega, List.drop_succ_cons]
    exact ih v n

theorem findVW_tail_none {c : Char} {cs : List Char} (h : findVW (c :: cs) = none) :
    findVW cs = none := by
  unfold findVW at h
  cases hm : matchVW (c :: cs) with
  | some pr =>
    obtain ⟨vw, rest⟩ := pr
    rw [hm] at h
    try simp only [] at h
    by_cases hq : rest.contains '"' = true
    · rw [if_pos hq] at h
      exact absurd h (by simp)
    · rw [if_neg hq] at h
      cases hf : findVW cs with
      | none => rfl
      | some tr =>
        obtain ⟨a, b, c'⟩ := tr
        rw [hf] at h
        exact absurd h (by simp)
  | none =>
    rw [hm] at h
    try simp only [] at h
    cases hf : findVW cs with
    | none => rfl
    | some tr =>
      obtain ⟨a, b, c'⟩ := tr
      rw [hf] at h
      exact absurd h (by simp)

theorem findVW_append_none : ∀ {u t : List Char}, findVW (u ++ t) = none → findVW t = none := by
  intro u
  induction u with
  | nil => intro t h; exact h
  | cons c u' ih =>
    intro t h
    rw [List.cons_append] at h
    exact ih (findVW_tail_none h)

theorem findVW_drop_none {t : List Char} (k : Nat) (h : findVW t = none) :
    findVW (t.drop k) = none := by
  have hdec : t = t.take k ++ t.drop k := (List.take_append_drop _ _).symm
  apply findVW_append_none (u := t.take k)
  rw [← hdec]
  exact h

theorem no_match_of_vw_none {s : List Char} (h : findVW (s.drop 9) = none) :
    ∀ u v, s = u ++ v → matchSeqAt v = none := by
  intro u v hs
  cases hmv : matchSeqAt v with
  | none => rfl
  | some tr =>
    exfalso
    obtain ⟨p, ct, rest⟩ := tr
    obtain ⟨mid, vw, _, _, _, _, hfv⟩ := matchSeqAt_eq hmv
    have h1 : v.drop 9 = (s.drop 9).drop u.length := by
      rw [hs, List.drop_drop, Nat.add_comm]
      exact (drop_append_len u v 9).symm
    have h2 : findVW (v.drop 9) = none := by
      rw [h1]
      exact findVW_drop_none _ h
    rw [hfv] at h2
    exact absurd h2 (by simp)

theorem subnSeq_id_of_no_match : ∀ {s : List Char},
    (∀ u v, s = u ++ v → matchSeqAt v = none) → subnSeq s = (s, 0) := by
  intro s
  induction s with
  | nil => intro _; rfl
  | cons c cs ih =>
    intro h
    have h0 : matchSeqAt (c :: cs) = none := h [] (c :: cs) rfl
    rw [subnSeq_cons_none h0,
      ih (fun u v hv => h (c :: u) v (by rw [hv, List.cons_append]))]

theorem splitQuote_some_of_mem {t : List Char} (h : '"' ∈ t) :
    ∃ a b, splitQuote t = some (a, b) := by
  induction t with
  | nil => simp at h
  | cons c cs ih =>
    by_cases hc : c = '"'
    · subst hc
      exact ⟨[], cs, by simp [splitQuote]⟩
    · have hm : '"' ∈ cs := by
        rcases List.mem_cons.mp h with h1 | h1
        · exact absurd h1.symm hc
        · exact h1
      obtain ⟨a, b, hab⟩ := ih hm
      refine ⟨c :: a, b, ?_⟩
      unfold splitQuote
      rw [if_neg hc, hab]

/-! ### A skipped position cannot in fact succeed when a quote lies ahead -/

/-- If the consumed part of a findVW result is followed by text containing a
quote, then a matchVW success at a skipped position would have to put that
quote inside its own remainder: counting double quotes on both sides of the
decomposition refutes a success whose remainder is quote-free, because a
matchVW match holds exactly one double quote (its final character). -/
theorem matchVW_no_unquoted_success {d vw rest w' r' : List Char}
    (hvwshape : ∃ w1 w2, (∀ c ∈ w1, isSpaceChar c = true) ∧
      (∀ c ∈ w2, isSpaceChar c = true) ∧ vw = valueLit ++ (w1 ++ '=' :: (w2 ++ ['"'])))
    (hqrest : rest.contains '"' = true)
    (hm : matchVW (d ++ (vw ++ rest)) = some (w', r'))
    (hnoq : r'.contains '"' = false) : False := by
  obtain ⟨w1, w2, _, _, hvw⟩ := hvwshape
  obtain ⟨w1', w2', hw1', hw2', hw'shape, hw'dec⟩ := matchVW_eq hm
  have hqs : isSpaceChar '"' = false := by decide
  have hqvw : '"' ∈ vw := by rw [hvw]; simp
  have hqrest' : '"' ∈ rest := (contains_iff_mem _ _).mp hqrest
  have hcntvw : 0 < List.count '"' vw := List.count_pos_iff.mpr hqvw
  have hcntrest : 0 < List.count '"' rest := List.count_pos_iff.mpr hqrest'
  have hcntr' : List.count '"' r' = 0 := by
    apply List.count_eq_zero.mpr
    intro hmem
    rw [(contains_iff_mem _ _).mpr hmem] at hnoq
    exact absurd hnoq (by simp)
  have h1 : List.count '"' valueLit = 0 := by decide
  have h2 : List.count '"' w1' = 0 := by
    apply List.count_eq_zero.mpr
    intro hmem
    have := hw1' '"' hmem
    rw [hqs] at this
    exact absurd this (by simp)
  have h3 : List.count '"' w2' = 0 := by
    apply List.count_eq_zero.mpr
    intro hmem
    have := hw2' '"' hmem
    rw [hqs] at this
    exact absurd this (by simp)
  have hw'cnt : List.count '"' w' = 1 := by
    rw [hw'shape]
    simp [List.count_append, List.count_cons, h1, h2, h3]
  have hcnt := congrArg (List.count '"') hw'dec
  rw [List.count_append, List.count_append, List.count_append] at hcnt
  omega

/-- The full minimality of findVW: matchVW outright fails at every skipped
position (the success-without-quote alternative of findVW_eq is impossible). -/
theorem findVW_min_none {s sk vw rest : List Char} (h : findVW s = some (sk, vw, rest)) :
    ∀ d₁ d₂, sk = d₁ ++ d₂ → d₂ ≠ [] → matchVW (d₂ ++ (vw ++ rest)) = none := by
  obtain ⟨hdec, hmv, hq, hmin⟩ := findVW_eq h
  obtain ⟨w1, w2, hw1, hw2, hvwshape, _⟩ := matchVW_eq hmv
  intro d₁ d₂ hd hne
  rcases hmin d₁ d₂ hd hne with hnone | ⟨w', r', hsome, hnoq⟩
  · exact hnone
  · exact absurd (matchVW_no_unquoted_success ⟨w1, w2, hw1, hw2, hvwshape⟩ hq hsome hnoq)
      (fun f => f)

/-! ### Building a match from its parts -/

theorem matchSeqAt_build (mid vw w1 w2 ct post : List Char)
    (hvw : vw = valueLit ++ (w1 ++ '=' :: (w2 ++ ['"'])))
    (hw1 : ∀ c ∈ w1, isSpaceChar c = true) (hw2 : ∀ c ∈ w2, isSpaceChar c = true)
    (hmid : ∀ d₁ d₂, mid = d₁ ++ d₂ → d₂ ≠ [] →
      matchVW (d₂ ++ (vw ++ (ct ++ '"' :: post))) = none)
    (hct : '"' ∉ ct) :
    matchSeqAt (seqLit ++ (mid ++ (vw ++ (ct ++ '"' :: post)))) =
      some (seqLit ++ (mid ++ vw), ct, post) := by
  have hlen : seqLit.length = 9 := by decide
  have hvwX : vw ++ (ct ++ '"' :: post) =
      valueLit ++ (w1 ++ '=' :: (w2 ++ '"' :: (ct ++ '"' :: post))) := by
    rw [hvw]
    simp
  have hmv : matchVW (vw ++ (ct ++ '"' :: post)) = some (vw, ct ++ '"' :: post) := by
    rw [hvwX, matchVW_canonical w1 w2 _ hw1 hw2, ← hvw]
  have hqin : (ct ++ '"' :: post).contains '"' = true := by
    rw [contains_iff_mem]
    simp
  have hfX := findVW_here hmv hqin
  have hfind := findVW_append hmid
  rw [hfX] at hfind
  try simp only [] at hfind
  unfold matchSeqAt
  rw [if_pos (isPrefixOf_append _ _), List.drop_left' hlen, hfind]
  try simp only []
  rw [splitQuote_of_append post hct]
  simp

/-! ### The scan preserves the first nine characters -/

theorem take9_cons (c : Char) (l : List Char) : (c :: l).take 9 = c :: l.take 8 := rfl

theorem subnSeq_take9_bounded : ∀ (n : Nat) (s : List Char), s.length ≤ n →
    (subnSeq s).1.take 9 = s.take 9 := by
  intro n
  induction n with
  | zero =>
    intro s hs
    have : s = [] := List.eq_nil_of_length_eq_zero (Nat.le_zero.mp hs)
    subst this
    rfl
  | succ n ih =>
    intro s hs
    cases s with
    | nil => rfl
    | cons c cs =>
      simp only [List.length_cons] at hs
      cases hm : matchSeqAt (c :: cs) with
      | some tr =>
        obtain ⟨p, ct, rest⟩ := tr
        rw [subnSeq_cons_some hm]
        simp only []
        obtain ⟨mid, vw, hp, hsdec, _, _, _⟩ := matchSeqAt_eq hm
        have h9 : seqLit.length = 9 := by decide
        have hplen : 9 ≤ p.length := by
          rw [hp]
          simp [h9]
        have h1 : (p ++ '-' :: '"' :: (subnSeq rest).1).take 9 = p.take 9 := by
          rw [List.take_append_eq_append_take, Nat.sub_eq_zero_of_le hplen]
          simp
        have h2 : (c :: cs).take 9 = p.take 9 := by
          rw [hsdec, List.take_append_eq_append_take, Nat.sub_eq_zero_of_le hplen]
          simp
        rw [h1, h2]
      | none =>
        rw [subnSeq_cons_none hm]
        simp only []
        have h8 : (subnSeq cs).1.take 8 = cs.take 8 := by
          have := congrArg (List.take 8) (ih cs (by omega))
          simpa [List.take_take] using this
        rw [take9_cons, take9_cons, h8]

theorem subnSeq_take9 (s : List Char) : (subnSeq s).1.take 9 = s.take 9 :=
  subnSeq_take9_bounded s.length s (le_refl _)

theorem seqPre_congr {x y : List Char} (h : x.take 9 = y.take 9) :
    seqLit.isPrefixOf x = seqLit.isPrefixOf y := by
  have h9 : seqLit.length = 9 := by decide
  have hiff : seqLit.isPrefixOf x = true ↔ seqLit.isPrefixOf y = true := by
    rw [isPrefixOf_iff_take, isPrefixOf_iff_take, h9, h]
  cases hx : seqLit.isPrefixOf x with
  | true => exact (hiff.mp hx).symm
  | false =>
    cases hy : seqLit.isPrefixOf y with
    | true => exact absurd (hiff.mpr hy) (by simp [hx])
    | false => rfl

/-! ### Idempotence of the sequence substitution on its own output -/

theorem subnSeq_idem_bounded : ∀ (n : Nat) (s : List Char), s.length ≤ n →
    subnSeq ((subnSeq s).1) = subnSeq s := by
  intro n
  induction n with
  | zero =>
    intro s hs
    have : s = [] := List.eq_nil_of_length_eq_zero (Nat.le_zero.mp hs)
    subst this
    rfl
  | succ n ih =>
    intro s hs
    cases s with
    | nil => rfl
    | cons c cs =>
      simp only [List.length_cons] at hs
      cases hm : matchSeqAt (c :: cs) with
      | some tr =>
        obtain ⟨p, ct, rest⟩ := tr
        obtain ⟨mid, vw, hp, hsdec, hctq, hdrop9, hfind⟩ := matchSeqAt_eq hm
        obtain ⟨hfdec, hmv, hqrest, _⟩ := findVW_eq hfind
        obtain ⟨w1, w2, hw1, hw2, hvwshape, hvwdec⟩ := matchVW_eq hmv
        have hmin := findVW_min_none hfind
        have hlt := matchSeqAt_rest_lt hm
        simp only [List.length_cons] at hlt
        rw [subnSeq_cons_some hm]
        simp only []
        have hvw0 : vw = (valueLit ++ (w1 ++ '=' :: w2)) ++ ['"'] := by
          rw [hvwshape]
          simp
        have hmid2 : ∀ d₁ d₂, mid = d₁ ++ d₂ → d₂ ≠ [] →
            matchVW (d₂ ++ (vw ++ (['-'] ++ '"' :: (subnSeq rest).1))) = none := by
          intro d₁ d₂ hd hne
          have h1 := hmin d₁ d₂ hd hne
          have e1 : d₂ ++ (vw ++ (ct ++ '"' :: rest)) =
              (d₂ ++ (valueLit ++ (w1 ++ '=' :: w2))) ++ '"' :: (ct ++ '"' :: rest) := by
            rw [hvw0]
            simp
          have e2 : d₂ ++ (vw ++ (['-'] ++ '"' :: (subnSeq rest).1)) =
              (d₂ ++ (valueLit ++ (w1 ++ '=' :: w2))) ++ '"' ::
                ('-' :: '"' :: (subnSeq rest).1) := by
            rw [hvw0]
            simp
          rw [e2]
          rw [e1] at h1
          exact matchVW_quote_transfer _ h1
        have hm2 : matchSeqAt (seqLit ++ (mid ++ (vw ++ (['-'] ++ '"' :: (subnSeq rest).1)))) =
            some (seqLit ++ (mid ++ vw), ['-'], (subnSeq rest).1) :=
          matchSeqAt_build mid vw w1 w2 ['-'] ((subnSeq rest).1) hvwshape hw1 hw2 hmid2
            (by decide)
        have htext : p ++ '-' :: '"' :: (subnSeq rest).1 =
            seqLit ++ (mid ++ (vw ++ (['-'] ++ '"' :: (subnSeq rest).1))) := by
          rw [hp]
          simp
        rw [htext, subnSeq_match hm2, ih rest (by omega), ← hp]
        simp [hp]
      | none =>
        by_cases hpre : seqLit.isPrefixOf (c :: cs) = true
        · -- the attribute search failed: no match exists anywhere in the text,
          -- so the first pass leaves it unchanged and the claim is immediate
          have hfnone : findVW ((c :: cs).drop 9) = none := by
            cases hf : findVW ((c :: cs).drop 9) with
            | none => rfl
            | some tr =>
              obtain ⟨mid, vw, rest₀⟩ := tr
              exfalso
              obtain ⟨_, _, hq₀, _⟩ := findVW_eq hf
              obtain ⟨a, b, hab⟩ := splitQuote_some_of_mem ((contains_iff_mem _ _).mp hq₀)
              have hsome : matchSeqAt (c :: cs) = some (seqLit ++ (mid ++ vw), a, b) := by
                unfold matchSeqAt
                rw [if_pos hpre, hf]
                try simp only []
                rw [hab]
              rw [hm] at hsome
              exact absurd hsome (by simp)
          have hid : subnSeq (c :: cs) = (c :: cs, 0) :=
            subnSeq_id_of_no_match (no_match_of_vw_none hfnone)
          rw [hid]
          exact hid
        · -- not a <sequence position: the head character is copied in both passes
          have hpre' : seqLit.isPrefixOf (c :: (subnSeq cs).1) = false := by
            have h8 : (subnSeq cs).1.take 8 = cs.take 8 := by
              have := congrArg (List.take 8) (subnSeq_take9 cs)
              simpa [List.take_take] using this
            have hcong : (c :: (subnSeq cs).1).take 9 = (c :: cs).take 9 := by
              rw [take9_cons, take9_cons, h8]
            rw [seqPre_congr hcong]
            cases hval : seqLit.isPrefixOf (c :: cs) with
            | false => rfl
            | true => exact absurd hval hpre
          have hm2 : matchSeqAt (c :: (subnSeq cs).1) = none := matchSeqAt_none_not_pre hpre'
          rw [subnSeq_cons_none hm]
          simp only []
          rw [subnSeq_cons_none hm2, ih cs (by omega)]

/-- The sequence substitution is idempotent on its own output: both the text
and, applied a second time, the reported count repeat themselves. -/
theorem subnSeq_idem (s : List Char) : subnSeq ((subnSeq s).1) = subnSeq s :=
  subnSeq_idem_bounded s.length s (le_refl _)

/-! ### The filesystem model and the script's top level (lines 46-93)

Paths are character lists.  The filesystem holds directories and files; the
file list is an association list where the first binding of a path wins, so
writing prepends.  os.path.abspath is modelled for already-absolute,
normalized paths (where it is the identity); relative paths are resolved
against a current working directory without normalization, and every theorem
below instantiates absolute normalized paths. -/

abbrev FPath := List Char

structure FS where
  dirs : List FPath
  files : List (FPath × List Char)
deriving DecidableEq

/-- Drop one trailing slash, as the path functions of os.path do. -/
def stripSlash (p : FPath) : FPath := if p.getLast? = some '/' then p.dropLast else p

def FS.isdir (fs : FS) (p : FPath) : Bool := fs.dirs.contains (stripSlash p)

def FS.isfile (fs : FS) (p : FPath) : Bool :=
  if p.getLast? = some '/' then false else (fs.files.map Prod.fst).contains p

/-- os.path.exists. -/
def FS.pathExists (fs : FS) (p : FPath) : Bool := fs.isdir p || fs.isfile p

/-- open(p).read(): the first binding of p wins. -/
def FS.readFile (fs : FS) (p : FPath) : Option (List Char) :=
  (fs.files.find? (fun pc => pc.1 == p)).map Prod.snd

/-- open(p, 'w').write(c): prepend the new binding (it shadows any old one). -/
def FS.writeFile (fs : FS) (p : FPath) (c : List Char) : FS :=
  { fs with files := (p, c) :: fs.files }

/-- os.mkdir. -/
def FS.mkdir (fs : FS) (p : FPath) : FS := { fs with dirs := stripSlash p :: fs.dirs }

/-- The name of an entry p directly under the directory d (d ends in a slash). -/
def stripUnder (d p : FPath) : Option FPath :=
  if d.isPrefixOf p then
    if p.drop d.length ≠ [] ∧ '/' ∉ p.drop d.length then some (p.drop d.length) else none
  else none

/-- os.listdir of a directory path ending in a slash. -/
def FS.listdir (fs : FS) (d : FPath) : List FPath :=
  (fs.files.map Prod.fst).filterMap (stripUnder d) ++ fs.dirs.filterMap (stripUnder d)

/-- Python str.rfind for a single character: the last index, or -1. -/
def pyRfind : List Char → Char → Int
  | [], _ => -1
  | c :: cs, ch =>
    let r := pyRfind cs ch
    if r ≥ 0 then r + 1
    else if c = ch then 0 else -1

/-- Python slice s[:i] with negative-index semantics. -/
def pySliceTo (s : List Char) (i : Int) : List Char :=
  s.take (Int.toNat (if 0 ≤ i then i else (s.length : Int) + i))

/-- Python slice s[i:] with negative-index semantics. -/
def pySliceFrom (s : List Char) (i : Int) : List Char :=
  s.drop (Int.toNat (if 0 ≤ i then i else (s.length : Int) + i))

/-- Modelled from the spec: os.path.abspath resolves a relative path against
the working directory and returns absolute paths unchanged (the script's
inputs in all theorems below are normalized absolute paths, on which
os.path.abspath is the identity; no dot-segment or duplicate-slash
normalization is modelled). -/
def pyAbspath (cwd p : FPath) : FPath :=
  if p.head? = some '/' then p else cwd ++ '/' :: p

/-! #### Shell-glob matching (fnmatch), modelled from the spec:
"shell-glob semantics (star, question mark, bracket classes; case sensitivity
follows the host filesystem)" — the POSIX case-sensitive behaviour. -/

inductive GTok where
  | star : GTok
  | anyc : GTok
  | lit : Char → GTok
  | cls : Bool → List (Char × Char) → GTok
deriving DecidableEq

/-- Parse the items of a bracket class up to the closing bracket; a range
a-b keeps its bounds, a plain character is a singleton range. -/
def parseClassItems : List Char → Option (List (Char × Char) × List Char)
  | [] => none
  | ']' :: rest => some ([], rest)
  | a :: '-' :: b :: rest =>
    if b = ']' then some ([(a, a), ('-', '-')], rest)
    else (parseClassItems rest).map (fun pr => ((a, b) :: pr.1, pr.2))
  | a :: rest => (parseClassItems rest).map (fun pr => ((a, a) :: pr.1, pr.2))

/-- Parse a bracket class after the opening bracket: an initial exclamation
mark negates, an immediately following closing bracket is a literal member. -/
def parseClass (s : List Char) : Option (Bool × List (Char × Char) × List Char) :=
  match s with
  | '!' :: ']' :: rest2 =>
    (parseClassItems rest2).map (fun pr => (true, (']', ']') :: pr.1, pr.2))
  | '!' :: rest =>
    (parseClassItems rest).map (fun pr => (true, pr.1, pr.2))
  | ']' :: rest2 =>
    (parseClassItems rest2).map (fun pr => (false, (']', ']') :: pr.1, pr.2))
  | _ => (parseClassItems s).map (fun pr => (false, pr.1, pr.2))

def classMatch (neg : Bool) (items : List (Char × Char)) (c : Char) : Bool :=
  let mem := items.any (fun pr => decide (pr.1 ≤ c) && decide (c ≤ pr.2))
  if neg then !mem else mem

/-- Translate a glob pattern into tokens; an unterminated bracket is a
literal opening bracket.  Fuel only makes the recursion structural. -/
def translatePatF : Nat → List Char → List GTok
  | 0, s => s.map GTok.lit
  | _ + 1, [] => []
  | fuel + 1, c :: cs =>
    if c = '*' then GTok.star :: translatePatF fuel cs
    else if c = '?' then GTok.anyc :: translatePatF fuel cs
    else if c = '[' then
      match parseClass cs with
      | some (neg, items, rest) => GTok.cls neg items :: translatePatF fuel rest
      | none => GTok.lit '[' :: translatePatF fuel cs
    else GTok.lit c :: translatePatF fuel cs

def translatePat (p : List Char) : List GTok := translatePatF p.length p

/-- Anchored glob token matching.  Fuel only makes the recursion structural. -/
def gmatchF : Nat → List Char → List GTok → Bool
  | 0, s, p => s.isEmpty && p.isEmpty
  | _ + 1, s, [] => s.isEmpty
  | fuel + 1, s, t :: ts =>
    match t with
    | GTok.star =>
      gmatchF fuel s ts ||
        (match s with
         | [] => false
         | _ :: cs => gmatchF fuel cs (GTok.star :: ts))
    | GTok.anyc =>
      match s with
      | [] => false
      | _ :: cs => gmatchF fuel cs ts
    | GTok.lit q =>
      match s with
      | [] => false
      | c :: cs => c = q && gmatchF fuel cs ts
    | GTok.cls neg items =>
      match s with
      | [] => false
      | c :: cs => classMatch neg items c && gmatchF fuel cs ts

/-- fnmatch.fnmatch on a case-sensitive filesystem. -/
def pyFnmatch (name pat : List Char) : Bool :=
  gmatchF (name.length + (translatePat pat).length) name (translatePat pat)

/-! #### The script's main flow -/

structure Options where
  cwd : FPath
  input : FPath
  pattern : FPath
  output : FPath
  message : List Char

inductive Outcome where
  | missingInput : Outcome
  | internalError : Outcome
  | runFailed : FPath → Outcome
  | done : List (FPath × Nat) → Outcome
deriving DecidableEq

/-- Line 84: the output filename, filename[:filename.rfind(".")] + ".blinded.xml". -/
def outName (f : FPath) : FPath := pySliceTo f (pyRfind f '.') ++ ".blinded.xml".toList

/-- Lines 77-87 for one file: read, redact sequences, insert the disclaimer,
write the derived output file.  none models the exceptions the script can
raise here (unreadable file, bad replacement template). -/
def processFile (fs : FS) (inputpath f outputpath : FPath) (message : List Char) :
    Option (FS × Nat × Nat) :=
  match fs.readFile (inputpath ++ f) with
  | none => none
  | some xml =>
    let r1 := subnSeq xml
    match insert_disclaimer message r1.1 with
    | Except.error _ => none
    | Except.ok r2 => some (fs.writeFile (outputpath ++ outName f) r2.1, r1.2, r2.2)

/-- Lines 72-90: process the matched filenames in order, accumulating the
per-file report lines (filename and sequence count). -/
def runLoop (inputpath outputpath : FPath) (message : List Char) :
    FS → List FPath → List (FPath × Nat) → FS × Outcome
  | fs, [], acc => (fs, Outcome.done acc.reverse)
  | fs, f :: rest, acc =>
    match processFile fs inputpath f outputpath message with
    | none => (fs, Outcome.runFailed f)
    | some (fs', n, _m) => runLoop inputpath outputpath message fs' rest ((f, n) :: acc)

/-- Python string comparison, used by sorted(). -/
def lexLe : List Char → List Char → Bool
  | [], _ => true
  | _ :: _, [] => false
  | x :: xs, y :: ys => if x = y then lexLe xs ys else decide (x < y)

def sortedPy (l : List FPath) : List FPath :=
  List.insertionSort (fun a b => lexLe a b = true) l

/-- Line 72-73: sorted(os.listdir(inputpath)) filtered by fnmatch. -/
def selectFiles (fs : FS) (inputpath pat : FPath) : List FPath :=
  (sortedPy (fs.listdir inputpath)).filter (fun f => pyFnmatch f pat)

/-- Lines 66-90: make the output folder if missing, then iterate. -/
def runResolved (fs : FS) (inputpath pat output cwd : FPath) (message : List Char) :
    FS × Outcome :=
  let outputpath := pyAbspath cwd output ++ ['/']
  let fs1 := if fs.pathExists outputpath then fs else fs.mkdir outputpath
  runLoop inputpath outputpath message fs1 (selectFiles fs1 inputpath pat) []

/-- Lines 46-93: the whole script after option parsing. -/
def runProgram (fs : FS) (opts : Options) : FS × Outcome :=
  if fs.pathExists opts.input = false then (fs, Outcome.missingInput)
  else if fs.isdir opts.input then
    runResolved fs (pyAbspath opts.cwd opts.input ++ ['/']) opts.pattern opts.output opts.cwd
      opts.message
  else if fs.isfile opts.input then
    runResolved fs
      (pySliceTo (pyAbspath opts.cwd opts.input) (pyRfind (pyAbspath opts.cwd opts.input) '/')
        ++ ['/'])
      (pySliceFrom (pyAbspath opts.cwd opts.input) (pyRfind (pyAbspath opts.cwd opts.input) '/' + 1))
      opts.output opts.cwd opts.message
  else (fs, Outcome.internalError)

/-! ### Facts about rfind and the derived output name -/

theorem pyRfind_none : ∀ {l : List Char} {c : Char}, c ∉ l → pyRfind l c = -1 := by
  intro l
  induction l with
  | nil => intro c _; rfl
  | cons a as ih =>
    intro c h
    have ha : ¬ a = c := fun he => h (by simp [he])
    have has : c ∉ as := fun hm => h (by simp [hm])
    unfold pyRfind
    rw [ih has]
    simp [ha]

theorem pyRfind_append_last : ∀ (stem : List Char) {ext : List Char} {c : Char}, c ∉ ext →
    pyRfind (stem ++ c :: ext) c = (stem.length : Int) := by
  intro stem
  induction stem with
  | nil =>
    intro ext c h
    show pyRfind (c :: ext) c = 0
    unfold pyRfind
    rw [pyRfind_none h]
    simp
  | cons a st ih =>
    intro ext c h
    rw [List.cons_append]
    unfold pyRfind
    rw [ih h]
    have : ((st ++ c :: ext).length : Int) ≥ 0 := by positivity
    simp only [List.length_cons]
    rw [if_pos (by omega)]
    push_cast
    ring

theorem outName_strip_ext {f stem ext : List Char} (hf : f = stem ++ '.' :: ext)
    (hext : '.' ∉ ext) : outName f = stem ++ ".blinded.xml".toList := by
  unfold outName pySliceTo
  rw [hf, pyRfind_append_last stem hext, if_pos (by positivity)]
  simp [List.take_left]

instance instDecWfSeqElem (e : SeqElem) : Decidable (wfSeqElem e) := by
  unfold wfSeqElem
  infer_instance

/-! ## The claims -/

/-- C1: for every input text containing k well-formed <sequence ... value="...">
elements whose quoted value content holds no embedded unescaped double quote,
the sequence-redaction substitution returns a count of exactly k, and the
output text holds exactly those k elements with their values collapsed to the
placeholder in place, with all other text of the input unchanged.  The text is
any interleaving of k well-formed elements with gaps that open no sequence
element (and, inside an element, no value token before the value attribute,
which the non-greedy match would otherwise lock onto). -/
theorem redact_sequences_wellformed_count (g0 : List Char)
    (items : List (SeqElem × List Char))
    (hg0 : containsSub seqLit g0 = false)
    (hitems : ∀ p ∈ items, wfSeqElem p.1 ∧ containsSub seqLit p.2 = false) :
    subnSeq (assembleSeq g0 items) =
      (assembleSeq g0 (items.map (fun p => (redactElem p.1, p.2))), items.length) :=
  subnSeq_assemble items g0 hg0 hitems

theorem redact_sequences_wellformed_count_witness :
    (containsSub seqLit "<xml> ".toList = false ∧
      (∀ p ∈ [(SeqElem.mk " id=\"7\" ".toList [] [] "ACGT".toList, "/>\n</xml>".toList)],
        wfSeqElem p.1 ∧ containsSub seqLit p.2 = false)) ∧
    subnSeq (assembleSeq "<xml> ".toList
        [(SeqElem.mk " id=\"7\" ".toList [] [] "ACGT".toList, "/>\n</xml>".toList)]) =
      (assembleSeq "<xml> ".toList
        [(SeqElem.mk " id=\"7\" ".toList [] [] ['-'], "/>\n</xml>".toList)], 1) :=
  ⟨⟨by decide, by decide⟩,
    redact_sequences_wellformed_count "<xml> ".toList
      [(SeqElem.mk " id=\"7\" ".toList [] [] "ACGT".toList, "/>\n</xml>".toList)]
      (by decide) (by decide)⟩

/-- C2, as stated, is false: redacting already-redacted text does report
substitutions again, because the collapsed value="-" still matches the
pattern and is replaced by itself.  At the concrete input below the second
pass reports 1, not 0. -/
theorem redact_sequences_second_pass_not_zero :
    ¬ ((subnSeq ((subnSeq "<sequence value=\"ACGT\"".toList).1)).2 = 0) := by decide

/-- C2 (amended): the sequence substitution is idempotent on its own output —
redacting already-redacted text changes nothing — but the second pass reports
the same substitution count as the first (each already-collapsed value is
matched again and replaced by itself), not 0. -/
theorem redact_sequences_idempotent (s : List Char) :
    subnSeq ((subnSeq s).1) = subnSeq s :=
  subnSeq_idem s

/-- C3: if the configured input location does not exist, the process aborts
immediately: the filesystem is returned entirely unchanged (no output file
written, no output directory created) with the missing-input outcome. -/
theorem missing_input_aborts_unchanged (fs : FS) (opts : Options)
    (h : fs.pathExists opts.input = false) :
    runProgram fs opts = (fs, Outcome.missingInput) := by
  unfold runProgram
  rw [h]
  simp

theorem missing_input_aborts_unchanged_witness :
    (FS.pathExists ⟨[], []⟩ "/nonexistent/path".toList = false) ∧
    runProgram ⟨[], []⟩
      { cwd := "/".toList, input := "/nonexistent/path".toList,
        pattern := "*.xml".toList, output := "/out".toList, message := "M".toList } =
      (⟨[], []⟩, Outcome.missingInput) :=
  ⟨by decide, missing_input_aborts_unchanged _ _ (by decide)⟩

/-- C4: for every text containing m occurrences of the literal substring
<data (here: any interleaving of m occurrences with gaps free of that
substring), the disclaimer insertion inserts exactly m comment blocks, each
being the comment with the message followed by a newline and a tab placed
immediately before one occurrence, in order; with m = 0 the text is
unchanged.  The message must be backslash-free so that it reaches the
replacement verbatim (see the template claim for the backslash case). -/
theorem insert_disclaimer_every_data (message g0 : List Char) (gs : List (List Char))
    (hmsg : '\\' ∉ message)
    (hg0 : containsSub dataLit g0 = false)
    (hgs : ∀ g ∈ gs, containsSub dataLit g = false) :
    insert_disclaimer message (assembleData g0 gs) =
      Except.ok (assembleDataIns ("<!-- ".toList ++ (message ++ " -->\n\t".toList)) g0 gs,
        gs.length) := by
  rw [insert_disclaimer_eq hmsg]
  have hconc : " -->\n\t<data".toList = " -->\n\t".toList ++ dataLit := by decide
  have hsplit : disclaimerTemplate message =
      ("<!-- ".toList ++ (message ++ " -->\n\t".toList)) ++ dataLit := by
    unfold disclaimerTemplate
    rw [hconc]
    simp
  rw [hsplit, subnData_assemble _ gs g0 hg0 hgs]

theorem insert_disclaimer_every_data_witness :
    ('\\' ∉ "NOTE".toList ∧ containsSub dataLit "<a>".toList = false ∧
      (∀ g ∈ [" x=\"1\">".toList], containsSub dataLit g = false)) ∧
    insert_disclaimer "NOTE".toList (assembleData "<a>".toList [" x=\"1\">".toList]) =
      Except.ok (assembleDataIns ("<!-- ".toList ++ ("NOTE".toList ++ " -->\n\t".toList))
        "<a>".toList [" x=\"1\">".toList], 1) :=
  ⟨⟨by decide, by decide, by decide⟩,
    insert_disclaimer_every_data "NOTE".toList "<a>".toList [" x=\"1\">".toList]
      (by decide) (by decide) (by decide)⟩

/-- C5: a file whose text yields zero matches in both substitution phases is
written out identical to its input, both phases report 0, and processing
completes normally (no error). -/
theorem zero_match_round_trip (fs : FS) (inputpath f outputpath : FPath)
    (message xml : List Char)
    (hread : fs.readFile (inputpath ++ f) = some xml)
    (hseq : (subnSeq xml).2 = 0)
    (hmsg : '\\' ∉ message)
    (hdata : (subnData (disclaimerTemplate message) xml).2 = 0) :
    processFile fs inputpath f outputpath message =
      some (fs.writeFile (outputpath ++ outName f) xml, 0, 0) := by
  unfold processFile
  rw [hread]
  try simp only []
  rw [subnSeq_count_zero hseq, insert_disclaimer_eq hmsg]
  try simp only []
  rw [subnData_count_zero hdata, hseq, hdata]

theorem zero_match_round_trip_witness :
    (FS.readFile ⟨["/d".toList], [("/d/a.xml".toList, "<root/>".toList)]⟩
        ("/d/".toList ++ "a.xml".toList) = some "<root/>".toList ∧
      (subnSeq "<root/>".toList).2 = 0 ∧ '\\' ∉ "M".toList ∧
      (subnData (disclaimerTemplate "M".toList) "<root/>".toList).2 = 0) ∧
    processFile ⟨["/d".toList], [("/d/a.xml".toList, "<root/>".toList)]⟩
        "/d/".toList "a.xml".toList "/o/".toList "M".toList =
      some ((FS.writeFile ⟨["/d".toList], [("/d/a.xml".toList, "<root/>".toList)]⟩
        ("/o/".toList ++ outName "a.xml".toList) "<root/>".toList), 0, 0) :=
  ⟨⟨by decide, by decide, by decide, by decide⟩,
    zero_match_round_trip ⟨["/d".toList], [("/d/a.xml".toList, "<root/>".toList)]⟩
      "/d/".toList "a.xml".toList "/o/".toList "M".toList "<root/>".toList
      (by decide) (by decide) (by decide) (by decide)⟩

/-- C7: for a processed filename containing a dot, the output name strips the
last extension and appends the blinded suffix, and processing writes exactly
that one derived file into the output directory. -/
theorem output_name_strips_extension (fs : FS) (inputpath f outputpath : FPath)
    (message xml stem ext : List Char)
    (hf : f = stem ++ '.' :: ext) (hext : '.' ∉ ext)
    (hread : fs.readFile (inputpath ++ f) = some xml)
    (hmsg : '\\' ∉ message) :
    outName f = stem ++ ".blinded.xml".toList ∧
    ∃ content n m, processFile fs inputpath f outputpath message =
      some (fs.writeFile (outputpath ++ (stem ++ ".blinded.xml".toList)) content, n, m) := by
  have hname : outName f = stem ++ ".blinded.xml".toList := outName_strip_ext hf hext
  refine ⟨hname, ?_⟩
  unfold processFile
  rw [hread]
  try simp only []
  rw [insert_disclaimer_eq hmsg]
  try simp only []
  rw [hname]
  exact ⟨_, _, _, rfl⟩

theorem output_name_strips_extension_witness :
    ("sample.xml".toList = "sample".toList ++ '.' :: "xml".toList ∧ '.' ∉ "xml".toList ∧
      FS.readFile ⟨[], [("/d/sample.xml".toList, "x".toList)]⟩
        ("/d/".toList ++ "sample.xml".toList) = some "x".toList ∧ '\\' ∉ "M".toList) ∧
    (outName "sample.xml".toList = "sample".toList ++ ".blinded.xml".toList ∧
      ∃ content n m, processFile ⟨[], [("/d/sample.xml".toList, "x".toList)]⟩
        "/d/".toList "sample.xml".toList "/o/".toList "M".toList =
        some (FS.writeFile ⟨[], [("/d/sample.xml".toList, "x".toList)]⟩
          ("/o/".toList ++ ("sample".toList ++ ".blinded.xml".toList)) content, n, m)) :=
  ⟨⟨by decide, by decide, by decide, by decide⟩,
    output_name_strips_extension ⟨[], [("/d/sample.xml".toList, "x".toList)]⟩
      "/d/".toList "sample.xml".toList "/o/".toList "M".toList "x".toList
      "sample".toList "xml".toList
      (by decide) (by decide) (by decide) (by decide)⟩

/-- C9: the disclaimer comment holds the message verbatim as
<!-- message --> when the message holds no backslash; because the message is
spliced into the regex replacement string, a backslash-t in the message
becomes a tab character and an invalid group reference such as backslash-1
makes processing fail instead of being inserted literally. -/
theorem disclaimer_message_template :
    (∀ (message text : List Char), '\\' ∉ message →
      insert_disclaimer message text =
        Except.ok (subnData ("<!-- ".toList ++ (message ++ " -->\n\t<data".toList)) text)) ∧
    insert_disclaimer "A\\tB".toList "<data/>".toList =
      Except.ok ("<!-- A\tB -->\n\t<data/>".toList, 1) ∧
    insert_disclaimer "x\\1y".toList "<data/>".toList =
      Except.error "invalid group reference" := by
  refine ⟨?_, by rfl, by rfl⟩
  intro message text h
  rw [insert_disclaimer_eq h]
  rfl

theorem disclaimer_message_template_witness :
    ('\\' ∉ "MSG".toList) ∧
    insert_disclaimer "MSG".toList "<data>".toList =
      Except.ok (subnData ("<!-- ".toList ++ ("MSG".toList ++ " -->\n\t<data".toList))
        "<data>".toList) :=
  ⟨by decide, disclaimer_message_template.1 "MSG".toList "<data>".toList (by decide)⟩

/-- C10: for a matched filename containing no dot, rfind returns -1 and the
Python slice filename[:-1] drops the final character, so the derived output
name is the filename without its last character followed by the blinded
suffix. -/
theorem no_dot_output_name (f : FPath) (h : '.' ∉ f) :
    outName f = f.dropLast ++ ".blinded.xml".toList := by
  unfold outName pySliceTo
  rw [pyRfind_none h, if_neg (by decide)]
  have hn : Int.toNat ((f.length : Int) + -1) = f.length - 1 := by omega
  rw [hn, ← List.dropLast_eq_take]

theorem no_dot_output_name_witness :
    ('.' ∉ "README".toList) ∧
    outName "README".toList = "README".toList.dropLast ++ ".blinded.xml".toList :=
  ⟨by decide, no_dot_output_name "README".toList (by decide)⟩

/-! ### What the run writes and what it leaves alone -/

theorem readFile_write_ne {fs : FS} {p q : FPath} {c : List Char} (h : p ≠ q) :
    (fs.writeFile q c).readFile p = fs.readFile p := by
  unfold FS.writeFile FS.readFile
  simp only [List.find?]
  have : (((q, c) : FPath × List Char).1 == p) = false := by
    simp
    exact fun he => h he.symm
  rw [this]

theorem readFile_mkdir (fs : FS) (p q : FPath) :
    (fs.mkdir q).readFile p = fs.readFile p := rfl

theorem isSuffixOf_append_self (t x : List Char) : t.isSuffixOf (x ++ t) = true := by
  unfold List.isSuffixOf
  rw [List.reverse_append]
  exact isPrefixOf_append _ _

theorem processFile_some {fs : FS} {inputpath f outputpath : FPath} {message : List Char}
    {tr : FS × Nat × Nat} (h : processFile fs inputpath f outputpath message = some tr) :
    ∃ content, tr.1 = fs.writeFile (outputpath ++ outName f) content := by
  unfold processFile at h
  cases hr : fs.readFile (inputpath ++ f) with
  | none => rw [hr] at h; exact absurd h (by simp)
  | some xml =>
    rw [hr] at h
    try simp only [] at h
    cases hd : insert_disclaimer message (subnSeq xml).1 with
    | error e => rw [hd] at h; exact absurd h (by simp)
    | ok r2 =>
      rw [hd] at h
      try simp only [] at h
      refine ⟨r2.1, ?_⟩
      simp only [Option.some.injEq] at h
      rw [← h]

theorem runLoop_preserve (inputpath outputpath : FPath) (message : List Char) (p : FPath)
    (hp : ∀ f : FPath, p ≠ outputpath ++ outName f) :
    ∀ (files : List FPath) (fs : FS) (acc : List (FPath × Nat)),
      (runLoop inputpath outputpath message fs files acc).1.readFile p = fs.readFile p := by
  intro files
  induction files with
  | nil => intro fs acc; rfl
  | cons f rest ih =>
    intro fs acc
    show (runLoop inputpath outputpath message fs (f :: rest) acc).1.readFile p = _
    unfold runLoop
    cases hpf : processFile fs inputpath f outputpath message with
    | none => rfl
    | some tr =>
      obtain ⟨fs', n, m⟩ := tr
      try simp only []
      rw [ih fs' ((f, n) :: acc)]
      obtain ⟨content, hfs'⟩ := processFile_some hpf
      simp only [] at hfs'
      rw [hfs', readFile_write_ne (hp f)]

/-- C8, as stated, is false: when the output directory overlaps the input
directory, a derived output path can coincide with an input file, which is
then overwritten.  Below, the input file /d/a.blinded.xml holds ORIG before
the run and the processed content of /d/a.xml afterwards. -/
theorem input_file_overwritten_counterexample :
    (FS.readFile ⟨["/d".toList], [("/d/a.xml".toList, "<x/>".toList),
        ("/d/a.blinded.xml".toList, "ORIG".toList)]⟩ "/d/a.blinded.xml".toList =
      some "ORIG".toList) ∧
    ((runProgram ⟨["/d".toList], [("/d/a.xml".toList, "<x/>".toList),
        ("/d/a.blinded.xml".toList, "ORIG".toList)]⟩
      { cwd := "/".toList, input := "/d".toList, pattern := "*.xml".toList,
        output := "/d".toList, message := "M".toList }).1.readFile
      "/d/a.blinded.xml".toList = some "<x/>".toList) := by decide

/-- C8 (amended): every input file is opened for reading only, and the only
persistent state change per processed file is the write of its derived
.blinded.xml file into the output directory — so the content of every path
that is not of that derived form (it lacks the output-directory prefix or the
.blinded.xml suffix) is unchanged by the whole run.  An input file whose path
does have that derived form (only possible when the output directory overlaps
the input files) can be overwritten, as the counterexample shows. -/
theorem run_touches_only_derived_outputs (fs : FS) (opts : Options) (p : FPath)
    (h : (pyAbspath opts.cwd opts.output ++ ['/']).isPrefixOf p = false ∨
      (".blinded.xml".toList).isSuffixOf p = false) :
    (runProgram fs opts).1.readFile p = fs.readFile p := by
  have hp : ∀ f : FPath, p ≠ (pyAbspath opts.cwd opts.output ++ ['/']) ++ outName f := by
    intro f heq
    rcases h with h1 | h1
    · rw [heq, isPrefixOf_append] at h1
      exact absurd h1 (by simp)
    · have hout : outName f = pySliceTo f (pyRfind f '.') ++ ".blinded.xml".toList := rfl
      rw [heq, hout, ← List.append_assoc, isSuffixOf_append_self] at h1
      exact absurd h1 (by simp)
  unfold runProgram
  by_cases h0 : fs.pathExists opts.input = false
  · rw [if_pos h0]
  · rw [if_neg h0]
    by_cases h1 : fs.isdir opts.input = true
    · rw [if_pos h1]
      unfold runResolved
      rw [runLoop_preserve _ _ _ p hp]
      by_cases h2 : fs.pathExists (pyAbspath opts.cwd opts.output ++ ['/']) = true
      · rw [if_pos h2]
      · rw [if_neg h2, readFile_mkdir]
    · rw [if_neg h1]
      by_cases h2 : fs.isfile opts.input = true
      · rw [if_pos h2]
        unfold runResolved
        rw [runLoop_preserve _ _ _ p hp]
        by_cases h3 : fs.pathExists (pyAbspath opts.cwd opts.output ++ ['/']) = true
        · rw [if_pos h3]
        · rw [if_neg h3, readFile_mkdir]
      · rw [if_neg h2]

theorem run_touches_only_derived_outputs_witness :
    ((pyAbspath "/".toList "/o".toList ++ ['/']).isPrefixOf "/q".toList = false ∨
      (".blinded.xml".toList).isSuffixOf "/q".toList = false) ∧
    ((runProgram ⟨["/d".toList], [("/d/a.xml".toList, "<x/>".toList), ("/q".toList, "Q".toList)]⟩
      { cwd := "/".toList, input := "/d".toList, pattern := "*.xml".toList,
        output := "/o".toList, message := "M".toList }).1.readFile "/q".toList =
      FS.readFile ⟨["/d".toList], [("/d/a.xml".toList, "<x/>".toList), ("/q".toList, "Q".toList)]⟩
        "/q".toList) :=
  ⟨Or.inl (by decide),
    run_touches_only_derived_outputs
      ⟨["/d".toList], [("/d/a.xml".toList, "<x/>".toList), ("/q".toList, "Q".toList)]⟩
      { cwd := "/".toList, input := "/d".toList, pattern := "*.xml".toList,
        output := "/o".toList, message := "M".toList }
      "/q".toList (Or.inl (by decide))⟩

/-! ### Selection of a single file by its own basename -/

theorem containsFP_iff_mem (l : List FPath) (a : FPath) : l.contains a = true ↔ a ∈ l := by
  rw [List.contains_iff_exists_mem_beq]
  constructor
  · rintro ⟨x, hx, hbeq⟩
    rw [beq_iff_eq] at hbeq
    rwa [hbeq]
  · intro h
    exact ⟨a, h, by simp⟩

theorem translatePatF_noMeta : ∀ (fuel : Nat) (p : List Char), p.length ≤ fuel →
    '*' ∉ p → '?' ∉ p → '[' ∉ p → translatePatF fuel p = p.map GTok.lit := by
  intro fuel
  induction fuel with
  | zero => intro p _ _ _ _; rfl
  | succ fuel ih =>
    intro p hp h1 h2 h3
    cases p with
    | nil => rfl
    | cons c cs =>
      have hc1 : ¬ c = '*' := fun h => h1 (by simp [h])
      have hc2 : ¬ c = '?' := fun h => h2 (by simp [h])
      have hc3 : ¬ c = '[' := fun h => h3 (by simp [h])
      simp only [List.length_cons] at hp
      unfold translatePatF
      rw [if_neg hc1, if_neg hc2, if_neg hc3,
        ih cs (by omega) (fun h => h1 (by simp [h])) (fun h => h2 (by simp [h]))
          (fun h => h3 (by simp [h]))]
      rfl

theorem gmatchF_lits : ∀ (fuel : Nat) (s p : List Char), s.length + p.length ≤ fuel →
    (gmatchF fuel s (p.map GTok.lit) = true ↔ s = p) := by
  intro fuel
  induction fuel with
  | zero =>
    intro s p h
    have hs : s = [] := List.eq_nil_of_length_eq_zero (by omega)
    have hp : p = [] := List.eq_nil_of_length_eq_zero (by omega)
    subst hs
    subst hp
    simp [gmatchF]
  | succ fuel ih =>
    intro s p h
    cases p with
    | nil =>
      show gmatchF (fuel + 1) s [] = true ↔ s = []
      unfold gmatchF
      simp [List.isEmpty_iff]
    | cons q ps =>
      cases s with
      | nil =>
        show gmatchF (fuel + 1) [] (GTok.lit q :: ps.map GTok.lit) = true ↔ [] = q :: ps
        unfold gmatchF
        simp
      | cons c cs =>
        show gmatchF (fuel + 1) (c :: cs) (GTok.lit q :: ps.map GTok.lit) = true ↔
          c :: cs = q :: ps
        unfold gmatchF
        simp only [List.length_cons] at h
        have hih := ih cs ps (by omega)
        simp only []
        rw [Bool.and_eq_true, decide_eq_true_iff, hih]
        simp [List.cons.injEq]

theorem pyFnmatch_noMeta {pat : List Char} (h1 : '*' ∉ pat) (h2 : '?' ∉ pat)
    (h3 : '[' ∉ pat) (name : List Char) : pyFnmatch name pat = true ↔ name = pat := by
  unfold pyFnmatch translatePat
  rw [translatePatF_noMeta pat.length pat (le_refl _) h1 h2 h3]
  exact gmatchF_lits _ name pat (by simp)

theorem stripUnder_inj {dir p n : FPath} (h : stripUnder dir p = some n) : p = dir ++ n := by
  unfold stripUnder at h
  split at h
  case isFalse => exact absurd h (by simp)
  case isTrue hpre =>
    split at h
    case isFalse => exact absurd h (by simp)
    case isTrue hcond =>
      simp only [Option.some.injEq] at h
      obtain ⟨t, ht⟩ := isPrefixOf_decomp hpre
      rw [← h, ht, List.drop_left' rfl]

theorem stripUnder_at {dir n : FPath} (hne : n ≠ []) (hns : '/' ∉ n) :
    stripUnder dir (dir ++ n) = some n := by
  unfold stripUnder
  rw [if_pos (isPrefixOf_append _ _), List.drop_left' rfl, if_pos ⟨hne, hns⟩]

theorem count_filterMap_stripUnder (dir n : FPath) (hne : n ≠ []) (hns : '/' ∉ n) :
    ∀ keys : List FPath,
      ((keys.filterMap (stripUnder dir)).count n) = keys.count (dir ++ n) := by
  intro keys
  induction keys with
  | nil => rfl
  | cons k ks ih =>
    cases hk : stripUnder dir k with
    | none =>
      have hkne : k ≠ dir ++ n := by
        intro he
        rw [he, stripUnder_at hne hns] at hk
        exact absurd hk (by simp)
      rw [List.filterMap_cons_none hk, List.count_cons, ih]
      simp [hkne]
    | some m =>
      have hkm : k = dir ++ m := stripUnder_inj hk
      rw [List.filterMap_cons_some hk, List.count_cons, List.count_cons, ih]
      by_cases hmn : m = n
      · subst hmn
        rw [hkm]
        simp
      · have : ¬ k = dir ++ n := by
          rw [hkm]
          intro he
          exact hmn (List.append_cancel_left he)
        simp [hmn, this]

theorem filter_eq_singleton_of_count {p : FPath → Bool} {a : FPath}
    (hiff : ∀ f, p f = true ↔ f = a) :
    ∀ {L : List FPath}, L.count a = 1 → L.filter p = [a] := by
  intro L
  induction L with
  | nil => intro h; exact absurd h (by simp)
  | cons x xs ih =>
    intro h
    by_cases hx : x = a
    · subst hx
      rw [List.count_cons_self] at h
      have hzero : xs.count x = 0 := by omega
      have hnot : x ∉ xs := by
        intro hm
        have := List.count_pos_iff.mpr hm
        omega
      have hfilterNil : xs.filter p = [] := by
        rw [List.filter_eq_nil_iff]
        intro f hf hp
        rw [hiff f] at hp
        exact hnot (hp ▸ hf)
      rw [List.filter_cons_of_pos (by rw [hiff x])]
      rw [hfilterNil]
    · have hpx : p x = false := by
        cases hpv : p x with
        | false => rfl
        | true => exact absurd ((hiff x).mp hpv) hx
      rw [List.filter_cons_of_neg (by simp [hpx])]
      apply ih
      rw [List.count_cons] at h
      simpa [hx] using h

theorem count_eq_one_of_nodup_mem : ∀ {l : List FPath}, l.Nodup → ∀ {a : FPath}, a ∈ l →
    l.count a = 1 := by
  intro l
  induction l with
  | nil => intro _ a ha; exact absurd ha (List.not_mem_nil a)
  | cons x xs ih =>
    intro hnd a ha
    rw [List.nodup_cons] at hnd
    rw [List.count_cons]
    rcases List.mem_cons.mp ha with he | hm
    · subst he
      rw [List.count_eq_zero.mpr hnd.1]
      simp
    · have hne2 : ¬ a = x := fun he2 => hnd.1 (he2 ▸ hm)
      rw [ih hnd.2 hm]
      simp [beq_iff_eq, hne2]
      exact fun he2 => hne2 he2.symm

/-- C6, as stated, is false: when the input is a single existing file whose own
basename contains a glob metacharacter, using that basename as the effective
pattern selects OTHER files of the parent directory as well.  Here the input is
the file /d/a*b.xml, yet both a*b.xml and axb.xml are processed. -/
theorem single_file_basename_selects_two_files :
    (runProgram
        ⟨["/d".toList],
          [("/d/a*b.xml".toList, "<q/>".toList), ("/d/axb.xml".toList, "<r/>".toList)]⟩
        ⟨"/".toList, "/d/a*b.xml".toList, "*.xml".toList, "/o".toList, "M".toList⟩).2 =
      Outcome.done [("a*b.xml".toList, 0), ("axb.xml".toList, 0)] := by
  decide

/-- C6 (amended): when the input is an existing single file d/base (absolute,
base nonempty, no slash) on a filesystem with distinct entry names, resolution
sets the input directory to the parent d and the effective pattern to base, and
the supplied pattern option is ignored; provided base contains no glob
metacharacter and the output directory is not that very file, the selection
loop then selects exactly that one basename. -/
theorem single_file_resolution_selects_basename (fs : FS)
    (cwd d base pat0 output message : List Char)
    (hwf : (fs.files.map Prod.fst ++ fs.dirs).Nodup)
    (hfile : fs.isfile (d ++ '/' :: base) = true)
    (hslash : '/' ∉ base) (hne : base ≠ [])
    (habs : (d ++ '/' :: base).head? = some '/')
    (hstar : '*' ∉ base) (hqm : '?' ∉ base) (hbr : '[' ∉ base)
    (hout : pyAbspath cwd output ≠ d ++ '/' :: base) :
    runProgram fs
        { cwd := cwd, input := d ++ '/' :: base, pattern := pat0,
          output := output, message := message } =
      runResolved fs (d ++ ['/']) base output cwd message ∧
    selectFiles
        (if fs.pathExists (pyAbspath cwd output ++ ['/']) = true then fs
         else fs.mkdir (pyAbspath cwd output ++ ['/'])) (d ++ ['/']) base =
      [base] := by
  obtain ⟨bs, b0, hbase⟩ : ∃ (l : List Char) (a : Char), base = l.concat a := by
    rcases List.eq_nil_or_concat base with h | h
    · exact absurd h hne
    · exact h
  rw [List.concat_eq_append] at hbase
  have hb0 : b0 ≠ '/' := by
    intro h0
    apply hslash
    rw [hbase, h0]
    simp
  have hconcat : d ++ '/' :: base = (d ++ '/' :: bs) ++ [b0] := by
    rw [hbase]
    simp
  have hlast : (d ++ '/' :: base).getLast? = some b0 := by
    rw [hconcat]
    exact List.getLast?_concat _
  have hstrip : stripSlash (d ++ '/' :: base) = d ++ '/' :: base := by
    unfold stripSlash
    rw [hlast, if_neg (by simp [hb0])]
  have hmemkeys : (d ++ '/' :: base) ∈ fs.files.map Prod.fst := by
    have hfile' := hfile
    unfold FS.isfile at hfile'
    rw [hlast, if_neg (by simp [hb0])] at hfile'
    exact (containsFP_iff_mem _ _).mp hfile'
  have hdisj := List.disjoint_of_nodup_append hwf
  have hdir : fs.isdir (d ++ '/' :: base) = false := by
    cases hd2 : fs.isdir (d ++ '/' :: base) with
    | false => rfl
    | true =>
      exfalso
      unfold FS.isdir at hd2
      rw [hstrip] at hd2
      exact hdisj hmemkeys ((containsFP_iff_mem _ _).mp hd2)
  have hexists : fs.pathExists (d ++ '/' :: base) = true := by
    unfold FS.pathExists
    rw [hfile]
    simp
  have habseq : pyAbspath cwd (d ++ '/' :: base) = d ++ '/' :: base := by
    unfold pyAbspath
    rw [if_pos habs]
  have hrfind : pyRfind (d ++ '/' :: base) '/' = (d.length : Int) :=
    pyRfind_append_last d hslash
  have hsliceTo : pySliceTo (d ++ '/' :: base) (d.length : Int) = d := by
    unfold pySliceTo
    rw [if_pos (by positivity)]
    have ht : Int.toNat (d.length : Int) = d.length := by omega
    rw [ht]
    exact List.take_left d ('/' :: base)
  have hsliceFrom : pySliceFrom (d ++ '/' :: base) ((d.length : Int) + 1) = base := by
    unfold pySliceFrom
    rw [if_pos (by positivity)]
    have ht : Int.toNat ((d.length : Int) + 1) = d.length + 1 := by omega
    rw [ht]
    have h1 := drop_append_len d ('/' :: base) 1
    rw [h1]
    rfl
  constructor
  · unfold runProgram
    simp only []
    rw [hexists, if_neg (by simp), hdir, if_neg (by simp), hfile, if_pos rfl]
    rw [habseq, hrfind, hsliceTo, hsliceFrom]
  · have key : ∀ fs' : FS, fs'.files = fs.files →
        (fs'.dirs = fs.dirs ∨ fs'.dirs = pyAbspath cwd output :: fs.dirs) →
        selectFiles fs' (d ++ ['/']) base = [base] := by
      intro fs' hf hd
      unfold selectFiles sortedPy
      apply filter_eq_singleton_of_count (fun f => pyFnmatch_noMeta hstar hqm hbr f)
      rw [List.count_eq_countP, List.Perm.countP_eq _ (List.perm_insertionSort _ _),
        ← List.count_eq_countP]
      unfold FS.listdir
      rw [List.count_append, hf]
      have hform : (d ++ ['/']) ++ base = d ++ '/' :: base := by simp
      have hcount1 :
          ((fs.files.map Prod.fst).filterMap (stripUnder (d ++ ['/']))).count base = 1 := by
        rw [count_filterMap_stripUnder (d ++ ['/']) base hne hslash, hform]
        exact count_eq_one_of_nodup_mem (List.nodup_append.mp hwf).1 hmemkeys
      have hcount2 : (fs'.dirs.filterMap (stripUnder (d ++ ['/']))).count base = 0 := by
        apply List.count_eq_zero.mpr
        intro hmem
        obtain ⟨pth, hpthmem, hpth⟩ := List.mem_filterMap.mp hmem
        have hpth' : pth = (d ++ ['/']) ++ base := stripUnder_inj hpth
        rw [hform] at hpth'
        subst hpth'
        rcases hd with hd1 | hd1
        · rw [hd1] at hpthmem
          exact hdisj hmemkeys hpthmem
        · rw [hd1] at hpthmem
          rcases List.mem_cons.mp hpthmem with he | he
          · exact hout he.symm
          · exact hdisj hmemkeys he
      rw [hcount1, hcount2]
    by_cases hc : fs.pathExists (pyAbspath cwd output ++ ['/']) = true
    · rw [if_pos hc]
      exact key fs rfl (Or.inl rfl)
    · rw [if_neg hc]
      refine key (fs.mkdir (pyAbspath cwd output ++ ['/'])) rfl (Or.inr ?_)
      show stripSlash (pyAbspath cwd output ++ ['/']) :: fs.dirs = _
      unfold stripSlash
      rw [List.getLast?_concat, if_pos rfl, List.dropLast_concat]

theorem single_file_resolution_selects_basename_witness :
    runProgram ⟨["/d".toList], [("/d/a.xml".toList, "<x/>".toList)]⟩
        { cwd := "/".toList, input := "/d".toList ++ '/' :: "a.xml".toList,
          pattern := "*.xml".toList, output := "/o".toList, message := "M".toList } =
      runResolved ⟨["/d".toList], [("/d/a.xml".toList, "<x/>".toList)]⟩
        ("/d".toList ++ ['/']) "a.xml".toList "/o".toList "/".toList "M".toList ∧
    selectFiles
        (if FS.pathExists ⟨["/d".toList], [("/d/a.xml".toList, "<x/>".toList)]⟩
            (pyAbspath "/".toList "/o".toList ++ ['/']) = true
         then ⟨["/d".toList], [("/d/a.xml".toList, "<x/>".toList)]⟩
         else FS.mkdir ⟨["/d".toList], [("/d/a.xml".toList, "<x/>".toList)]⟩
            (pyAbspath "/".toList "/o".toList ++ ['/'])) ("/d".toList ++ ['/'])
        "a.xml".toList =
      ["a.xml".toList] :=
  single_file_resolution_selects_basename
    ⟨["/d".toList], [("/d/a.xml".toList, "<x/>".toList)]⟩
    "/".toList "/d".toList "a.xml".toList "*.xml".toList "/o".toList "M".toList
    (by decide) (by decide) (by decide) (by decide) (by decide) (by decide) (by decide)
    (by decide) (by decide)
